import Mathlib

/-!
Verification of the block-file codec in PSLibrary/helpers.py.

The codec reads and writes a semicolon-delimited multi-table text format:
blocks start at a line containing the pattern dollar-NAME-colon and end at a
star-line accepted by a disambiguation test.  The embedding below models the
file contents as a list of characters (one character per byte; the repository
processes ASCII data through an mmap view of the raw file) and each helper of
helpers.py as a Lean function.  Loops of the source become fuel-indexed
structural recursions; the fuel supplied at the top level strictly dominates
the number of iterations, which is bounded by the scan cursor that advances by
at least one position per iteration.

The external CSV service used by the source (pandas read_csv and
DataFrame.to_csv) is out of scope of the repository.  Modelled from the spec:
a generic CSV decoder over semicolon-separated text that takes the first line
as the header, skips blank lines, skips initial spaces after delimiters,
drops over-long data lines with a warning, and performs column-level integer
type inference; and a CSV encoder that joins the rendered cells of each row
with semicolons, one row per line, with no quoting.  Those two models carry
only the features of the service the codec relies on (ASCII data, integer and
string cells).
-/

namespace PSLib

/-- Cell of a decoded table: the model keeps the two scalar kinds the codec
exercises (strings and integers) plus the missing-value marker that the CSV
service produces for absent or empty fields. -/
inductive Cell where
  | str (s : List Char)
  | intv (n : Int)
  | nan
deriving DecidableEq, Repr

/-- Decoded form of a block: ordered column names and ordered rows, as in the
pandas DataFrame the source builds. -/
structure Table where
  columns : List (List Char)
  rows : List (List Cell)
deriving DecidableEq, Repr

/-- Model of pandas DataFrame of an empty list: no columns, no rows. -/
def emptyTable : Table := ⟨[], []⟩

/-! ### Generic list-of-characters helpers

These model the string and bytes primitives of Python that helpers.py uses:
substring membership, find, readline, split, join, replace. -/

/-- Boolean test that the first list is a prefix of the second. -/
def startsWithSeq : List Char → List Char → Bool
  | [], _ => true
  | _ :: _, [] => false
  | p :: ps, c :: cs => p = c && startsWithSeq ps cs

/-- Boolean test that the first list occurs as a contiguous subsequence of the
second; this models the Python membership test on strings. -/
def containsSeq (p : List Char) : List Char → Bool
  | [] => startsWithSeq p []
  | c :: rest => startsWithSeq p (c :: rest) || containsSeq p rest

/-- Index of the first occurrence of a character, if any. -/
def firstIdxFrom (c : Char) : List Char → Option Nat
  | [] => none
  | a :: l => if a = c then some 0 else (firstIdxFrom c l).map (· + 1)

/-- Split a remaining buffer into the line at its start (newline included when
present) together with the number of characters consumed; models one
mmap.readline call on the suffix of the map at the current position. -/
def lineAt (rem : List Char) : List Char × Nat :=
  match firstIdxFrom '\n' rem with
  | some k => (rem.take (k + 1), k + 1)
  | none => (rem, rem.length)

/-- Model of mmap.find for a single-character needle: the search starts at the
current position, and the returned index is absolute. -/
def findFrom (buf : List Char) (c : Char) (pos : Nat) : Option Nat :=
  (firstIdxFrom c (buf.drop pos)).map (· + pos)

/-- Model of mmap.readline at an absolute position: the line read and the new
absolute position. -/
def readlineAt (buf : List Char) (pos : Nat) : List Char × Nat :=
  ((lineAt (buf.drop pos)).1, pos + (lineAt (buf.drop pos)).2)

/-- Split on a separator character; models Python str.split with a
one-character separator (list of segments, empty segments kept). -/
def splitOnChar (c : Char) : List Char → List (List Char)
  | [] => [[]]
  | a :: l =>
    match splitOnChar c l with
    | [] => if a = c then [[], []] else [[a]]
    | h :: t => if a = c then [] :: h :: t else (a :: h) :: t

/-- Join with a semicolon separator; models the Python join on a semicolon. -/
def joinSemi : List (List Char) → List Char
  | [] => []
  | [x] => x
  | x :: y :: ys => x ++ ';' :: joinSemi (y :: ys)

/-- Map with the position of each element, used to model per-column access. -/
def mapWithIdx (f : Nat → α → β) : List α → List β
  | [] => []
  | a :: l => f 0 a :: mapWithIdx (fun i => f (i + 1)) l

/-- Model of Python str.replace with a one-character pattern: each occurrence
of the pattern character is replaced by the given replacement sequence. -/
def pyReplace (a : Char) (b : List Char) : List Char → List Char
  | [] => []
  | c :: l => (if c = a then b else [c]) ++ pyReplace a b l

/-- Model of Python str.upper restricted to the ASCII range the codec
processes: lowercase ASCII letters map to their uppercase forms and every
other character is left unchanged. -/
def asciiUpper : Char → Char
  | 'a' => 'A' | 'b' => 'B' | 'c' => 'C' | 'd' => 'D' | 'e' => 'E' | 'f' => 'F'
  | 'g' => 'G' | 'h' => 'H' | 'i' => 'I' | 'j' => 'J' | 'k' => 'K' | 'l' => 'L'
  | 'm' => 'M' | 'n' => 'N' | 'o' => 'O' | 'p' => 'P' | 'q' => 'Q' | 'r' => 'R'
  | 's' => 'S' | 't' => 'T' | 'u' => 'U' | 'v' => 'V' | 'w' => 'W' | 'x' => 'X'
  | 'y' => 'Y' | 'z' => 'Z'
  | c => c

/-- Uppercase a whole list of characters, modelling str.upper on a string. -/
def pyUpper (s : List Char) : List Char := s.map asciiUpper

/-- Fuel-indexed worker computing the LAST segment of a Python str.split on a
non-overlapping left-to-right scan; this models taking the final element of
the list Python str.split returns.  The fuel dominates the length of the
scanned list, which strictly decreases at every step. -/
def pySplitLastF (sep : List Char) : Nat → List Char → List Char
  | 0, s => s
  | fuel + 1, s =>
    if sep = [] then s
    else if startsWithSeq sep s then pySplitLastF sep fuel (s.drop sep.length)
    else
      match s with
      | [] => []
      | _ :: rest => if containsSeq sep rest then pySplitLastF sep fuel rest else s

/-- Last segment of Python str.split: the suffix following the last separator
occurrence found by the left-to-right non-overlapping scan. -/
def pySplitLast (sep s : List Char) : List Char := pySplitLastF sep s.length s

/-! ### Integer rendering and parsing (model of the CSV service's treatment of
integer cells) -/

/-- Decimal digit character for a value below ten. -/
def digitChar10 (n : Nat) : Char :=
  if n = 0 then '0' else if n = 1 then '1' else if n = 2 then '2'
  else if n = 3 then '3' else if n = 4 then '4' else if n = 5 then '5'
  else if n = 6 then '6' else if n = 7 then '7' else if n = 8 then '8' else '9'

/-- Little-endian decimal digits of a natural number, empty for zero; the fuel
dominates the number itself. -/
def natDigitsRev : Nat → Nat → List Char
  | 0, _ => []
  | fuel + 1, m => if m = 0 then [] else digitChar10 (m % 10) :: natDigitsRev fuel (m / 10)

/-- Decimal rendering of a natural number. -/
def natRepr (m : Nat) : List Char := if m = 0 then ['0'] else (natDigitsRev m m).reverse

/-- Decimal rendering of an integer, as the CSV encoder writes integer cells. -/
def intRepr : Int → List Char
  | Int.ofNat m => natRepr m
  | Int.negSucc m => '-' :: natRepr (m + 1)

/-- Numeric value of a decimal digit character. -/
def digitVal (c : Char) : Nat := c.toNat - 48

/-- Boolean test that every character is a decimal digit. -/
def allDigits (s : List Char) : Bool := s.all fun c => decide ('0' ≤ c) && decide (c ≤ '9')

/-- Value of a big-endian digit list. -/
def parseNatDigits (s : List Char) : Nat := s.foldl (fun a c => a * 10 + digitVal c) 0

/-- Integer parse of one CSV field, modelling the decoder's integer
recognition: an optional leading minus sign followed by at least one digit. -/
def parseIntField (s : List Char) : Option Int :=
  match s with
  | [] => none
  | c :: rest =>
    if c = '-' then
      if rest ≠ [] ∧ allDigits rest then some (-(parseNatDigits rest : Int)) else none
    else
      if allDigits (c :: rest) then some ((parseNatDigits (c :: rest) : Int)) else none

/-! ### CSV decoding service model

Modelled from the spec: a generic CSV decoder over semicolon-delimited text
(pandas read_csv with sep set to the semicolon, skipinitialspace, warn on bad
lines).  The first non-blank line is the header; blank lines are skipped;
spaces after a delimiter are skipped; a data line with more fields than the
header is dropped with a warning; a data line with fewer fields is padded with
missing values; a column whose present fields all parse as integers is an
integer column, any other column keeps its fields as strings; empty fields are
missing values. -/

/-- Strip the spaces the decoder skips after a delimiter. -/
def dropLeadingSpaces (s : List Char) : List Char := s.dropWhile (· = ' ')

/-- Fields of one CSV line: split on semicolons, spaces skipped after each
delimiter (so on every field but the first). -/
def splitFields (l : List Char) : List (List Char) :=
  match splitOnChar ';' l with
  | [] => []
  | f :: fs => f :: fs.map dropLeadingSpaces

/-- Decode of one field under the column's inferred type. -/
def decodeField (isInt : Bool) : Option (List Char) → Cell
  | none => Cell.nan
  | some [] => Cell.nan
  | some (c :: f) =>
    if isInt then
      match parseIntField (c :: f) with
      | some n => Cell.intv n
      | none => Cell.str (c :: f)
    else Cell.str (c :: f)

/-- Decode a byte span as semicolon-separated tabular text; model of the CSV
decoding service invocation in read_visum_file (the source may receive the
result in chunks and concatenates them in order, which yields the same
table). -/
def decode_csv (bytes : List Char) : Table :=
  match (splitOnChar '\n' bytes).filter (· ≠ []) with
  | [] => emptyTable
  | hdr :: rest =>
    let cols := splitFields hdr
    let n := cols.length
    let good := (rest.map splitFields).filter fun r => r.length ≤ n
    let padded := good.map fun r => r.map some ++ List.replicate (n - r.length) (none : Option (List Char))
    let isInt : Nat → Bool := fun j =>
      padded.all fun r =>
        match r.getD j none with
        | some f => (parseIntField f).isSome
        | none => true
    ⟨cols, padded.map fun r => mapWithIdx (fun j f => decodeField (isInt j) f) r⟩

/-- Render one cell for the CSV encoder. -/
def cellRender : Cell → List Char
  | Cell.str s => s
  | Cell.intv n => intRepr n
  | Cell.nan => []

/-- Modelled from the spec: the CSV encoding service invocation in
export_visum_file (DataFrame.to_csv with a semicolon separator, no index, no
header, newline line terminator, no quoting): each row becomes the
semicolon-join of its rendered cells followed by a newline. -/
def rowsCsv (rows : List (List Cell)) : List Char :=
  match rows with
  | [] => []
  | r :: rs => joinSemi (r.map cellRender) ++ '\n' :: rowsCsv rs

/-! ### File Reader: read_visum_file

The source opens the file via a BOM-aware text open, then memory-maps the raw
file and scans it with mmap.find / seek / readline.  mmap.find starts at the
current file position.  The scan is modelled with an absolute cursor over the
character list.  The membership test of the source compares the pattern
against the Python repr of the line bytes; for the ASCII-printable content the
codec handles this coincides with membership in the raw line, which is what
the model uses. -/

/-- Pattern the source builds for a requested block name: a dollar sign, the
name, and a colon. -/
def blockPattern (name : List Char) : List Char := '$' :: (name ++ [':'])

/-- Terminator search of read_visum_file (the inner while loop over candidate
stars): find the next star from the current position; re-read the line
starting at that star; accept it when the line has no semicolon and its first
star sits at index zero or one; otherwise skip past that line and continue.
When no candidate is accepted the block ends at the end of the file, modelled
by returning the buffer length (the source replaces the failed find by the map
size).  The fuel dominates the iteration count: every rejected candidate
advances the position past at least one character. -/
def findTerminator (buf : List Char) : Nat → Nat → Nat
  | 0, _ => buf.length
  | fuel + 1, pos =>
    match findFrom buf '*' pos with
    | none => buf.length
    | some s =>
      if firstIdxFrom ';' (readlineAt buf s).1 = none ∧
          (firstIdxFrom '*' (readlineAt buf s).1 = some 0 ∨
           firstIdxFrom '*' (readlineAt buf s).1 = some 1) then s
      else findTerminator buf fuel (readlineAt buf s).2

/-- Decode of one located block span: CSV-decode the span, then strip from
each column name everything up to and including the pattern built from the
uppercased requested name (Python split on that pattern, last piece kept). -/
def decodeBlock (name : List Char) (bytes : List Char) : Table :=
  ⟨(decode_csv bytes).columns.map fun x => pySplitLast ('$' :: (pyUpper name ++ [':'])) x,
   (decode_csv bytes).rows⟩

/-- Inner for-loop of read_visum_file over the requested names: test each name
in request order against the line that was read at the found dollar sign, and
STOP at the first name whose pattern is not in that line (the source breaks
out of the loop).  A matching name is marked found, its block span runs from
the dollar sign to the terminator found from the current position, the decoded
table is stored at the name's request index, and the position moves to the end
of the span (the source reads the span, leaving the position there). -/
def processNames (buf : List Char) (line : List Char) (dollarIdx : Nat) :
    List (List Char) → Nat → List Bool → List Table → Nat →
    List Bool × List Table × Nat
  | [], _, found, data, pos => (found, data, pos)
  | name :: rest, idx, found, data, pos =>
    if containsSeq (blockPattern name) line then
      processNames buf line dollarIdx rest (idx + 1) (found.set idx true)
        (data.set idx
          (decodeBlock name
            ((buf.take (findTerminator buf (buf.length + 1) pos)).drop dollarIdx)))
        (findTerminator buf (buf.length + 1) pos)
    else (found, data, pos)

/-- Outer while loop of read_visum_file: while some requested block is still
unfound, find the next dollar sign from the current position (stopping when
none remains), read the line it starts, and run the inner name loop.  The fuel
dominates the iteration count: every iteration advances the position past at
least the dollar sign it found. -/
def scanBlocks (buf : List Char) (names : List (List Char)) :
    Nat → List Bool → List Table → Nat → List Table
  | 0, _, data, _ => data
  | fuel + 1, found, data, pos =>
    if found.contains false then
      match findFrom buf '$' pos with
      | none => data
      | some d =>
        scanBlocks buf names fuel
          (processNames buf (readlineAt buf d).1 d names 0 found data (readlineAt buf d).2).1
          (processNames buf (readlineAt buf d).1 d names 0 found data (readlineAt buf d).2).2.1
          (processNames buf (readlineAt buf d).1 d names 0 found data (readlineAt buf d).2).2.2
    else data

deriving instance DecidableEq for Except

/-- Model of read_visum_file on a list of requested names: the result list
holds one table per requested name, at the name's request position, starting
from empty tables.  Memory-mapping an empty file raises in Python (mmap
rejects a zero-length map), which the model surfaces as an error; every other
input returns normally. -/
def read_visum_file (buf : List Char) (names : List (List Char)) :
    Except Unit (List Table) :=
  if buf = [] then Except.error ()
  else
    Except.ok (scanBlocks buf names (buf.length + 1)
      (List.replicate names.length false)
      (List.replicate names.length emptyTable) 0)

/-! ### Sanitizer: _replace_invalid_visum_chars -/

/-- Replacement the source substitutes for the dollar sign (the two-character
sequence written in the source text). -/
def fallbackChars : List Char := ['ย', 'ง']

/-- Per-cell effect of the two masked column rewrites: for a string cell, when
the cell contains a dollar sign every dollar sign is replaced by the fallback
sequence, and when the original cell contains a semicolon every semicolon of
the current value is replaced by a comma (the masks are both computed before
the first rewrite; the first rewrite never changes where semicolons are).
Non-string cells are never masked, as their stringified forms contain neither
character. -/
def sanitizeCell : Cell → Cell
  | Cell.str s =>
    Cell.str
      (if containsSeq [';'] s then
        pyReplace ';' [','] (if containsSeq ['$'] s then pyReplace '$' fallbackChars s else s)
      else if containsSeq ['$'] s then pyReplace '$' fallbackChars s else s)
  | c => c

/-- Column guard of the sanitizer: the source only rewrites a column when the
table has at least one row and the FIRST entry of that column is a string. -/
def colIsStr (t : Table) (j : Nat) : Bool :=
  match t.rows with
  | [] => false
  | r :: _ =>
    match r[j]? with
    | some (Cell.str _) => true
    | _ => false

/-- Sanitize one table: every column that passes the guard has its cells
rewritten; other columns are untouched.  Failures on one column are swallowed
in the source; the modelled operations are total, so no failure arises. -/
def sanitizeTable (t : Table) : Table :=
  ⟨t.columns,
   t.rows.map fun r =>
     mapWithIdx (fun j c => if j < t.columns.length ∧ colIsStr t j = true then sanitizeCell c else c) r⟩

/-- Model of _replace_invalid_visum_chars on the values of the dataframes (the
source mutates each dataframe in place and returns the same objects; the store
model below captures the aliasing). -/
def replace_invalid_visum_chars (dataframes : List Table) : List Table :=
  dataframes.map sanitizeTable

/-! ### File Writer: export_visum_file -/

/-- Fixed first piece of the file-level header: the VISION marker line and the
start of the date comment line. -/
def headerPart1 : List Char := ['$', 'V', 'I', 'S', 'I', 'O', 'N', '\n', '*', ' ']

/-- Fixed middle piece of the file-level header: the VERSION header line and
the start of its data line. -/
def headerPart2 : List Char :=
  ['\n', '$', 'V', 'E', 'R', 'S', 'I', 'O', 'N', ':', 'V', 'E', 'R', 'S', 'N', 'R', ';',
   'F', 'I', 'L', 'E', 'T', 'Y', 'P', 'E', ';', 'L', 'A', 'N', 'G', 'U', 'A', 'G', 'E',
   ';', 'U', 'N', 'I', 'T', '\n', '\n', '1', '0', '.', '0', '0', '0', ';']

/-- Fixed last piece of the file-level header after the file type: language
and unit tags. -/
def headerPart3 : List Char := [';', 'E', 'N', 'G', ';', 'K', 'M', '\n', '\n']

/-- File-level header block written in create mode, parametrised by the
current date string and the file type. -/
def headerText (date ft : List Char) : List Char :=
  headerPart1 ++ date ++ headerPart2 ++ ft ++ headerPart3

/-- Fixed first piece of the per-table banner. -/
def banner1 : List Char := ['*', '\n', '*', ' ', 'T', 'a', 'b', 'l', 'e', ':', ' ']

/-- Fixed second piece of the per-table banner, ending at the dollar sign of
the block header line. -/
def banner2 : List Char := ['\n', '*', '\n', '$']

/-- Text written for one (table, name) pair: the three-line comment banner,
the block header line with the semicolon-joined column names uppercased, and
the CSV-encoded rows. -/
def tableBlockText (t : Table) (name : List Char) : List Char :=
  banner1 ++ name ++ banner2 ++ name ++ ':' :: pyUpper (joinSemi t.columns) ++ '\n' :: rowsCsv t.rows

/-- Text written for a list of (table, name) pairs in order. -/
def tableBlocksText : List (Table × List Char) → List Char
  | [] => []
  | p :: ps => tableBlockText p.1 p.2 ++ tableBlocksText ps

/-- Create-mode marker: the Python write mode string for creating a file. -/
def wMode : List Char := ['w']

/-- Append-mode marker: the Python write mode string the source documents for
appending. -/
def aMode : List Char := ['a', '+']

/-- Raw text emitted by export_visum_file for already-sanitized tables: the
file-level header exactly when the mode is the create mode, then the table
blocks in the order given (the source zips tables and names, truncating to the
shorter list). -/
def exportText (dfs : List Table) (names : List (List Char)) (ft date mode : List Char) :
    List Char :=
  (if mode = wMode then headerText date ft else []) ++ tableBlocksText (dfs.zip names)

/-- Model of export_visum_file on lists: sanitize the tables, then emit the
header (create mode only) and the table blocks.  The returned value is the
text written to the output file by this call. -/
def export_visum_file (dfs : List Table) (names : List (List Char)) (ft date mode : List Char) :
    List Char :=
  exportText (replace_invalid_visum_chars dfs) names ft date mode

/-- Store model for the frame effect of export_visum_file: dataframes live in
a store indexed by handles, and Python variables hold handles.  The sanitizer
walks the handed-over handles, rewrites the table behind each handle in place,
and appends the SAME handle to its result list. -/
def replaceInvalidStore : List Table → List Nat → List Nat × List Table
  | store, [] => ([], store)
  | store, h :: hs =>
    (h :: (replaceInvalidStore (store.set h (sanitizeTable (store.getD h emptyTable))) hs).1,
     (replaceInvalidStore (store.set h (sanitizeTable (store.getD h emptyTable))) hs).2)

/-- Model of export_visum_file at the store level: the written text together
with the store after the call; the caller's handles still point into the
store, so the second component is what the caller's dataframes now hold. -/
def export_visum_file_store (store : List Table) (handles : List Nat)
    (names : List (List Char)) (ft date mode : List Char) : List Char × List Table :=
  (exportText ((replaceInvalidStore store handles).1.map
      fun h => (replaceInvalidStore store handles).2.getD h emptyTable) names ft date mode,
   (replaceInvalidStore store handles).2)

/-! ### Encoding Detector: _get_encoding and _bom_aware_open -/

/-- Named encodings the detector chooses between. -/
inductive VisEncoding where
  | utf8sig
  | ansi
deriving DecidableEq, Repr

/-- UTF-8 byte-order-mark bytes. -/
def bomBytes : List Nat := [239, 187, 191]

/-- Model of _get_encoding on the raw bytes of the file: read the first three
bytes and compare them with the UTF-8 byte-order mark. -/
def get_encoding (bytes : List Nat) : VisEncoding :=
  if bytes.take 3 = bomBytes then VisEncoding.utf8sig else VisEncoding.ansi

/-- Model of _get_encoding including the I/O outcome of the open and read: an
unreadable file (the none case) propagates the error; the source installs no
handler. -/
def get_encoding_io : Option (List Nat) → Except Unit VisEncoding
  | none => Except.error ()
  | some bs => Except.ok (get_encoding bs)

/-! ### Well-formedness predicates used by the theorems

These decidable predicates gather the side conditions under which the
universal theorems below hold; they are not part of the source model. -/

/-- Character allowed in a block name for the round-trip theorem: uppercase
ASCII letter or decimal digit. -/
def goodNameChar (c : Char) : Bool :=
  (decide ('A' ≤ c) && decide (c ≤ 'Z')) || (decide ('0' ≤ c) && decide (c ≤ '9'))

/-- Characters of the reserved VERSION table name. -/
def versionChars : List Char := ['V', 'E', 'R', 'S', 'I', 'O', 'N']

/-- Block name usable for a clean round trip: nonempty, uppercase
alphanumeric, and distinct from the reserved VERSION name of the file-level
header. -/
def goodName (name : List Char) : Bool :=
  decide (name ≠ []) && name.all goodNameChar && decide (name ≠ versionChars)

/-- Character carrying no structural meaning for the codec: not the block
sentinel, not the delimiter, not the comment sentinel, not a line break. -/
def plainChar (c : Char) : Bool :=
  decide (c ≠ '$') && decide (c ≠ ';') && decide (c ≠ '*') && decide (c ≠ '\n')

/-- Column name usable for a clean round trip. -/
def goodCol (col : List Char) : Bool :=
  decide (col ≠ []) && col.all plainChar && decide (col.headD ' ' ≠ ' ')

/-- String cell value usable for a clean round trip: nonempty, structurally
plain, no leading space (the decoder skips spaces after delimiters), and not
parsing as an integer (the decoder's type inference would turn it into
one). -/
def goodStrCell (s : List Char) : Bool :=
  decide (s ≠ []) && s.all plainChar && decide (s.headD ' ' ≠ ' ') && (parseIntField s).isNone

/-- Cell usable for a clean round trip. -/
def goodCell : Cell → Bool
  | Cell.str s => goodStrCell s
  | Cell.intv _ => true
  | Cell.nan => false

/-- Column homogeneity at one index: all integer cells or all string cells,
matching how the dataframe of the source carries one dtype per column. -/
def colHomog (rows : List (List Cell)) (j : Nat) : Bool :=
  (rows.all fun r =>
    match r[j]? with
    | some (Cell.intv _) => true
    | _ => false) ||
  (rows.all fun r =>
    match r[j]? with
    | some (Cell.str _) => true
    | _ => false)

/-- Table usable for a clean round trip: at least one column, well-formed
column names, rectangular rows of well-formed cells, homogeneous columns. -/
def goodTable (t : Table) : Bool :=
  decide (t.columns ≠ []) && t.columns.all goodCol &&
  t.rows.all (fun r => decide (r.length = t.columns.length) && r.all goodCell) &&
  (List.range t.columns.length).all (colHomog t.rows)

/-- Text free of the block sentinel, required of the date and file-type
strings so the scan cannot mistake them for a block start. -/
def dollarFree (s : List Char) : Bool := s.all fun c => decide (c ≠ '$')

/-- Two-block file used by the request-ordering theorems: block A with one
one-digit row, then block B with one one-digit row, each closed by a lone-star
comment line. -/
def mkFileAB (a b : Fin 10) : List Char :=
  ['$', 'A', ':', 'C', '\n', digitChar10 a.val, '\n', '*', '\n',
   '$', 'B', ':', 'C', '\n', digitChar10 b.val, '\n', '*', '\n']

/-- Characters of the VISION marker line of the file-level header. -/
def visionLine : List Char := ['$', 'V', 'I', 'S', 'I', 'O', 'N']

/-- Characters of the VERSION header line after its dollar sign. -/
def versionTail : List Char :=
  ['V', 'E', 'R', 'S', 'I', 'O', 'N', ':', 'V', 'E', 'R', 'S', 'N', 'R', ';',
   'F', 'I', 'L', 'E', 'T', 'Y', 'P', 'E', ';', 'L', 'A', 'N', 'G', 'U', 'A', 'G', 'E',
   ';', 'U', 'N', 'I', 'T']

/-- Characters of the VERSION header line of the file-level header. -/
def versionLine : List Char := '$' :: versionTail

/-- Characters of the fixed version tag of the header data line. -/
def tenPiece : List Char := ['1', '0', '.', '0', '0', '0', ';']

/-! ## Lemmas about the list helpers -/

theorem startsWithSeq_iff (p s : List Char) : startsWithSeq p s = true ↔ ∃ t, s = p ++ t := by
  induction p generalizing s with
  | nil => simp [startsWithSeq]
  | cons a ps ih =>
    cases s with
    | nil => simp [startsWithSeq]
    | cons c cs =>
      simp only [startsWithSeq, Bool.and_eq_true, decide_eq_true_eq, ih, List.cons_append]
      constructor
      · rintro ⟨rfl, t, rfl⟩
        exact ⟨t, rfl⟩
      · rintro ⟨t, h⟩
        injection h with h1 h2
        exact ⟨h1.symm, t, h2⟩

theorem startsWithSeq_append (p t : List Char) : startsWithSeq p (p ++ t) = true :=
  (startsWithSeq_iff p (p ++ t)).2 ⟨t, rfl⟩

theorem containsSeq_iff (p s : List Char) : containsSeq p s = true ↔ ∃ a b, s = a ++ (p ++ b) := by
  induction s with
  | nil =>
    simp only [containsSeq, startsWithSeq_iff]
    constructor
    · rintro ⟨t, h⟩
      exact ⟨[], t, h⟩
    · rintro ⟨a, b, h⟩
      cases a with
      | nil => exact ⟨b, h⟩
      | cons x xs => simp at h
  | cons c cs ih =>
    simp only [containsSeq, Bool.or_eq_true, startsWithSeq_iff, ih]
    constructor
    · rintro (⟨t, h⟩ | ⟨a, b, h⟩)
      · exact ⟨[], t, by simpa using h⟩
      · exact ⟨c :: a, b, by simp [h]⟩
    · rintro ⟨a, b, h⟩
      cases a with
      | nil => exact Or.inl ⟨b, by simpa using h⟩
      | cons x xs =>
        rw [List.cons_append] at h
        injection h with h1 h2
        exact Or.inr ⟨xs, b, h2⟩

theorem containsSeq_of_starts {p s : List Char} (h : startsWithSeq p s = true) :
    containsSeq p s = true := by
  rcases (startsWithSeq_iff p s).1 h with ⟨t, rfl⟩
  exact (containsSeq_iff p (p ++ t)).2 ⟨[], t, rfl⟩

theorem mem_of_containsSeq {p s : List Char} {c : Char} (h : containsSeq p s = true)
    (hc : c ∈ p) : c ∈ s := by
  rcases (containsSeq_iff p s).1 h with ⟨a, b, rfl⟩
  simp [hc]

theorem containsSeq_eq_false_of_not_mem {p s : List Char} {c : Char} (hc : c ∈ p)
    (hs : c ∉ s) : containsSeq p s = false := by
  cases h : containsSeq p s with
  | false => rfl
  | true => exact absurd (mem_of_containsSeq h hc) hs

theorem containsSeq_singleton {c : Char} {s : List Char} : containsSeq [c] s = true ↔ c ∈ s := by
  constructor
  · intro h
    exact mem_of_containsSeq h (List.mem_singleton_self c)
  · intro h
    rcases List.append_of_mem h with ⟨u, v, rfl⟩
    exact (containsSeq_iff [c] (u ++ c :: v)).2 ⟨u, v, by simp⟩

theorem containsSeq_of_middle {p l : List Char} (a b : List Char)
    (h : containsSeq p l = true) : containsSeq p (a ++ (l ++ b)) = true := by
  rcases (containsSeq_iff p l).1 h with ⟨x, y, rfl⟩
  exact (containsSeq_iff p _).2 ⟨a ++ x, y ++ b, by simp⟩

theorem firstIdxFrom_eq_none {c : Char} {s : List Char} :
    firstIdxFrom c s = none ↔ c ∉ s := by
  induction s with
  | nil => simp [firstIdxFrom]
  | cons a l ih =>
    by_cases h : a = c
    · simp [firstIdxFrom, h]
    · simp [firstIdxFrom, h, ih, Ne.symm h]

theorem firstIdxFrom_append_left {c : Char} {xs : List Char} {k : Nat} (ys : List Char)
    (h : firstIdxFrom c xs = some k) : firstIdxFrom c (xs ++ ys) = some k := by
  induction xs generalizing k with
  | nil => simp [firstIdxFrom] at h
  | cons a l ih =>
    by_cases ha : a = c
    · simp [firstIdxFrom, ha] at h ⊢
      exact h
    · simp only [firstIdxFrom, if_neg ha, List.cons_append, Option.map_eq_some'] at h ⊢
      obtain ⟨m, hm, rfl⟩ := h
      exact ⟨m, ih hm, rfl⟩

theorem firstIdxFrom_append_right {c : Char} {xs : List Char} (ys : List Char)
    (h : c ∉ xs) :
    firstIdxFrom c (xs ++ ys) = (firstIdxFrom c ys).map (· + xs.length) := by
  induction xs with
  | nil => simp
  | cons a l ih =>
    have ha : ¬ a = c := fun e => h (by simp [e])
    have hl : c ∉ l := fun hc => h (List.mem_cons_of_mem a hc)
    rw [List.cons_append]
    simp only [firstIdxFrom, if_neg ha]
    rw [ih hl]
    cases firstIdxFrom c ys <;> simp [Nat.add_assoc]

theorem firstIdxFrom_get {c : Char} {s : List Char} {k : Nat}
    (h : firstIdxFrom c s = some k) : s[k]? = some c := by
  induction s generalizing k with
  | nil => simp [firstIdxFrom] at h
  | cons a l ih =>
    by_cases ha : a = c
    · simp [firstIdxFrom, ha] at h
      simp [← h, ha]
    · simp only [firstIdxFrom, if_neg ha, Option.map_eq_some'] at h
      obtain ⟨m, hm, rfl⟩ := h
      simpa using ih hm

theorem firstIdxFrom_lt_length {c : Char} {s : List Char} {k : Nat}
    (h : firstIdxFrom c s = some k) : k < s.length := by
  have := firstIdxFrom_get h
  exact (List.getElem?_eq_some.1 this).1

theorem findFrom_eq_none {buf : List Char} {c : Char} {pos : Nat} :
    findFrom buf c pos = none ↔ c ∉ buf.drop pos := by
  simp [findFrom, firstIdxFrom_eq_none]

theorem findFrom_some {buf : List Char} {c : Char} {pos s : Nat}
    (h : findFrom buf c pos = some s) :
    buf[s]? = some c ∧ pos ≤ s := by
  simp only [findFrom, Option.map_eq_some'] at h
  obtain ⟨k, hk, rfl⟩ := h
  have hg := firstIdxFrom_get hk
  rw [List.getElem?_drop] at hg
  constructor
  · rw [Nat.add_comm] at hg
    exact hg
  · omega

theorem lineAt_of_no_newline {s : List Char} (h : '\n' ∉ s) : lineAt s = (s, s.length) := by
  simp [lineAt, firstIdxFrom_eq_none.2 h]

theorem lineAt_append {xs : List Char} (ys : List Char) (h : '\n' ∉ xs) :
    lineAt (xs ++ '\n' :: ys) = (xs ++ ['\n'], xs.length + 1) := by
  have h1 : firstIdxFrom '\n' (xs ++ '\n' :: ys) = some xs.length := by
    rw [firstIdxFrom_append_right _ h]
    simp [firstIdxFrom]
  simp only [lineAt, h1]
  have h2 : List.take (xs.length + 1) (xs ++ '\n' :: ys) = xs ++ List.take 1 ('\n' :: ys) :=
    List.take_append 1
  simp [h2]

theorem lineAt_first (rem : List Char) : ∃ t, rem = (lineAt rem).1 ++ t := by
  unfold lineAt
  cases h : firstIdxFrom '\n' rem with
  | none => exact ⟨[], by simp⟩
  | some k => exact ⟨rem.drop (k + 1), by simp⟩

theorem lineAt_cons (a : Char) (r : List Char) : ∃ u, (lineAt (a :: r)).1 = a :: u := by
  unfold lineAt
  cases h : firstIdxFrom '\n' (a :: r) with
  | none => exact ⟨r, rfl⟩
  | some k => exact ⟨(a :: r).tail.take k, by simp [List.take_cons]⟩

theorem lineAt_consumed_le (rem : List Char) : (lineAt rem).2 ≤ rem.length := by
  unfold lineAt
  cases h : firstIdxFrom '\n' rem with
  | none => simp
  | some k =>
    have := firstIdxFrom_lt_length h
    simpa using this

theorem lineAt_consumed_pos {rem : List Char} (h : rem ≠ []) : 1 ≤ (lineAt rem).2 := by
  unfold lineAt
  cases hf : firstIdxFrom '\n' rem with
  | none =>
    simpa using List.length_pos.2 h
  | some k => simp

theorem splitOnChar_ne_nil (c : Char) (s : List Char) : splitOnChar c s ≠ [] := by
  induction s with
  | nil => simp [splitOnChar]
  | cons a l ih =>
    cases hr : splitOnChar c l with
    | nil => exact absurd hr ih
    | cons h t =>
      by_cases hac : a = c <;> simp [splitOnChar, hr, hac]

theorem splitOnChar_no_sep {c : Char} {s : List Char} (h : c ∉ s) :
    splitOnChar c s = [s] := by
  induction s with
  | nil => rfl
  | cons a l ih =>
    have ha : ¬ a = c := fun e => h (by simp [e])
    have hl : c ∉ l := fun hc => h (List.mem_cons_of_mem a hc)
    simp [splitOnChar, ih hl, ha]

theorem splitOnChar_append_sep {c : Char} {xs : List Char} (ys : List Char)
    (h : c ∉ xs) : splitOnChar c (xs ++ c :: ys) = xs :: splitOnChar c ys := by
  induction xs with
  | nil =>
    cases hr : splitOnChar c ys with
    | nil => exact absurd hr (splitOnChar_ne_nil c ys)
    | cons hh tt => simp [splitOnChar, hr]
  | cons a l ih =>
    have ha : ¬ a = c := fun e => h (by simp [e])
    have hl : c ∉ l := fun hc => h (List.mem_cons_of_mem a hc)
    rw [List.cons_append]
    simp only [splitOnChar, if_neg ha]
    rw [ih hl]

theorem splitOnChar_glue {c : Char} {p : List Char} (s : List Char) (h : c ∉ p) :
    splitOnChar c (p ++ s) =
      (p ++ (splitOnChar c s).headD []) :: (splitOnChar c s).tail := by
  induction p with
  | nil =>
    cases hr : splitOnChar c s with
    | nil => exact absurd hr (splitOnChar_ne_nil c s)
    | cons hh tt => simp [hr]
  | cons a l ih =>
    have ha : ¬ a = c := fun e => h (by simp [e])
    have hl : c ∉ l := fun hc => h (List.mem_cons_of_mem a hc)
    rw [List.cons_append]
    simp only [splitOnChar, if_neg ha]
    rw [ih hl]
    simp

theorem splitOnChar_joinSemi {l : List (List Char)} (hne : l ≠ [])
    (h : ∀ x ∈ l, ';' ∉ x) : splitOnChar ';' (joinSemi l) = l := by
  induction l with
  | nil => exact absurd rfl hne
  | cons x xs ih =>
    cases xs with
    | nil => simpa [joinSemi] using splitOnChar_no_sep (h x (by simp))
    | cons y ys =>
      rw [show joinSemi (x :: y :: ys) = x ++ ';' :: joinSemi (y :: ys) from rfl,
        splitOnChar_append_sep _ (h x (by simp)),
        ih (by simp) (fun z hz => h z (List.mem_cons_of_mem x hz))]

theorem splitOnChar_rowsCsv {rows : List (List Cell)}
    (h : ∀ r ∈ rows, '\n' ∉ joinSemi (r.map cellRender)) :
    splitOnChar '\n' (rowsCsv rows) =
      rows.map (fun r => joinSemi (r.map cellRender)) ++ [[]] := by
  induction rows with
  | nil => rfl
  | cons r rs ih =>
    rw [show rowsCsv (r :: rs) = joinSemi (r.map cellRender) ++ '\n' :: rowsCsv rs from rfl,
      splitOnChar_append_sep _ (h r (by simp)),
      ih (fun z hz => h z (List.mem_cons_of_mem r hz))]
    simp

theorem asciiUpper_plain {c : Char} (h : plainChar c = true) :
    plainChar (asciiUpper c) = true := by
  unfold asciiUpper
  split <;> first | decide | exact h

theorem asciiUpper_ne_space {c : Char} (h : ¬ c = ' ') : ¬ asciiUpper c = ' ' := by
  unfold asciiUpper
  split <;> first | decide | exact h

theorem asciiUpper_eq_self_of_good {c : Char} (h : goodNameChar c = true) :
    asciiUpper c = c := by
  unfold asciiUpper
  split <;> first | rfl | (revert h; decide)

theorem asciiUpper_upper_bounds (c : Char) :
    asciiUpper c = c ∨ ('A' ≤ asciiUpper c ∧ asciiUpper c ≤ 'Z') := by
  unfold asciiUpper
  split <;> first | (left; rfl) | (right; decide)

theorem asciiUpper_eq_self_of_bounds {c : Char} (h1 : 'A' ≤ c) (h2 : c ≤ 'Z') :
    asciiUpper c = c := by
  unfold asciiUpper
  split <;> first | rfl | (revert h1 h2; decide)

theorem asciiUpper_idem (c : Char) : asciiUpper (asciiUpper c) = asciiUpper c := by
  rcases asciiUpper_upper_bounds c with h | ⟨h1, h2⟩
  · rw [h, h]
  · exact asciiUpper_eq_self_of_bounds h1 h2

theorem pyUpper_idem (s : List Char) : pyUpper (pyUpper s) = pyUpper s := by
  simp [pyUpper, Function.comp, asciiUpper_idem]

theorem pyUpper_joinSemi (l : List (List Char)) :
    pyUpper (joinSemi l) = joinSemi (l.map pyUpper) := by
  induction l with
  | nil => rfl
  | cons x xs ih =>
    cases xs with
    | nil => rfl
    | cons y ys =>
      rw [show joinSemi (x :: y :: ys) = x ++ ';' :: joinSemi (y :: ys) from rfl]
      simp only [pyUpper, List.map_append, List.map_cons] at ih ⊢
      rw [ih]
      rfl

theorem pyUpper_eq_self_of_goodName {name : List Char}
    (h : ∀ c ∈ name, goodNameChar c = true) : pyUpper name = name := by
  induction name with
  | nil => rfl
  | cons a l ih =>
    simp only [pyUpper, List.map_cons] at ih ⊢
    rw [asciiUpper_eq_self_of_good (h a (by simp)), ih fun c hc => h c (List.mem_cons_of_mem a hc)]

theorem pyUpper_not_mem {s : List Char} {c : Char} (hplain : ∀ x ∈ s, plainChar x = true)
    (hc : plainChar c = false) : c ∉ pyUpper s := by
  intro hmem
  simp only [pyUpper, List.mem_map] at hmem
  obtain ⟨x, hx, rfl⟩ := hmem
  rw [asciiUpper_plain (hplain x hx)] at hc
  cases hc

theorem pySplitLastF_nil (sep : List Char) : ∀ fuel, pySplitLastF sep fuel [] = [] := by
  intro fuel
  cases fuel with
  | zero => rfl
  | succ f =>
    by_cases hsep : sep = []
    · simp [pySplitLastF, hsep]
    · have : startsWithSeq sep [] = false := by
        cases sep with
        | nil => exact absurd rfl hsep
        | cons a l => rfl
      simp [pySplitLastF, hsep, this]

theorem pySplitLastF_not_contains {sep : List Char} :
    ∀ (fuel : Nat) (s : List Char), containsSeq sep s = false →
      pySplitLastF sep fuel s = s := by
  intro fuel
  induction fuel with
  | zero => intro s _; rfl
  | succ f ih =>
    intro s h
    by_cases hsep : sep = []
    · simp [pySplitLastF, hsep]
    · have hsw : startsWithSeq sep s = false := by
        cases hs : startsWithSeq sep s with
        | false => rfl
        | true => rw [containsSeq_of_starts hs] at h; cases h
      cases s with
      | nil => exact pySplitLastF_nil sep (f + 1)
      | cons a rest =>
        have hrest : containsSeq sep rest = false := by
          have : containsSeq sep (a :: rest) = (startsWithSeq sep (a :: rest) || containsSeq sep rest) := rfl
          rw [this, hsw] at h
          simpa using h
        simp [pySplitLastF, hsep, hsw, hrest]

theorem pySplitLastF_fuel {sep : List Char} :
    ∀ (f1 f2 : Nat) (s : List Char), s.length ≤ f1 → s.length ≤ f2 →
      pySplitLastF sep f1 s = pySplitLastF sep f2 s := by
  intro f1
  induction f1 with
  | zero =>
    intro f2 s h1 _
    have : s = [] := List.length_eq_zero.1 (Nat.le_zero.1 h1)
    subst this
    simp only [pySplitLastF_nil]
  | succ f ih =>
    intro f2 s h1 h2
    cases f2 with
    | zero =>
      have : s = [] := List.length_eq_zero.1 (Nat.le_zero.1 h2)
      subst this
      simp only [pySplitLastF_nil]
    | succ g =>
      by_cases hsep : sep = []
      · simp [pySplitLastF, hsep]
      · by_cases hsw : startsWithSeq sep s = true
        · have hlen : 0 < sep.length := List.length_pos.2 hsep
          have hdrop : (s.drop sep.length).length ≤ f ∧ (s.drop sep.length).length ≤ g := by
            rcases (startsWithSeq_iff sep s).1 hsw with ⟨t, rfl⟩
            simp only [List.length_drop, List.length_append] at h1 h2 ⊢
            omega
          simp only [pySplitLastF, if_neg hsep, hsw, if_pos rfl, if_true]
          exact ih g _ hdrop.1 hdrop.2
        · rw [Bool.not_eq_true] at hsw
          cases s with
          | nil => simp only [pySplitLastF_nil]
          | cons a rest =>
            by_cases hct : containsSeq sep rest = true
            · simp only [pySplitLastF, if_neg hsep, hsw, hct]
              simp only [List.length_cons] at h1 h2
              exact ih g rest (by omega) (by omega)
            · rw [Bool.not_eq_true] at hct
              simp [pySplitLastF, hsep, hsw, hct]

theorem pySplitLast_not_contains {sep s : List Char} (h : containsSeq sep s = false) :
    pySplitLast sep s = s :=
  pySplitLastF_not_contains s.length s h

theorem pySplitLast_strip {sep t : List Char} (hsep : sep ≠ [])
    (h : containsSeq sep t = false) : pySplitLast sep (sep ++ t) = t := by
  unfold pySplitLast
  have hfuel : pySplitLastF sep (sep ++ t).length (sep ++ t) =
      pySplitLastF sep (t.length + sep.length) (sep ++ t) := by
    apply pySplitLastF_fuel <;> simp [List.length_append] <;> omega
  rw [hfuel]
  have hpos : 0 < sep.length := List.length_pos.2 hsep
  obtain ⟨k, hk⟩ : ∃ k, sep.length = k + 1 := ⟨sep.length - 1, by omega⟩
  rw [show t.length + sep.length = (t.length + k) + 1 by omega]
  simp only [pySplitLastF, if_neg hsep, startsWithSeq_append, if_pos rfl, if_true]
  have hdrop : (sep ++ t).drop sep.length = t := by
    simp
  rw [hdrop]
  exact pySplitLastF_not_contains _ t h


theorem digitChar10_bounds (n : Nat) : '0' ≤ digitChar10 n ∧ digitChar10 n ≤ '9' := by
  unfold digitChar10
  split_ifs <;> decide

theorem digitVal_digitChar10 {k : Nat} (h : k < 10) : digitVal (digitChar10 k) = k := by
  interval_cases k <;> decide

theorem natDigitsRev_mem_digit :
    ∀ (fuel m : Nat), ∀ c ∈ natDigitsRev fuel m, '0' ≤ c ∧ c ≤ '9' := by
  intro fuel
  induction fuel with
  | zero => intro m c hc; cases hc
  | succ f ih =>
    intro m c hc
    by_cases hm : m = 0
    · simp [natDigitsRev, hm] at hc
    · simp only [natDigitsRev, if_neg hm, List.mem_cons] at hc
      rcases hc with rfl | hc
      · exact digitChar10_bounds (m % 10)
      · exact ih (m / 10) c hc

theorem allDigits_iff {s : List Char} :
    allDigits s = true ↔ ∀ c ∈ s, '0' ≤ c ∧ c ≤ '9' := by
  simp [allDigits, List.all_eq_true]

theorem foldl_natDigitsRev :
    ∀ (fuel m : Nat), m ≤ fuel → ∀ a : Nat,
      List.foldl (fun x c => x * 10 + digitVal c) a (natDigitsRev fuel m).reverse =
        a * 10 ^ (natDigitsRev fuel m).length + m := by
  intro fuel
  induction fuel with
  | zero =>
    intro m hm a
    have : m = 0 := Nat.le_zero.1 hm
    simp [natDigitsRev, this]
  | succ f ih =>
    intro m hm a
    by_cases hm0 : m = 0
    · simp [natDigitsRev, hm0]
    · have hdiv : m / 10 ≤ f := by
        have h1 : m / 10 < m := Nat.div_lt_self (Nat.pos_of_ne_zero hm0) (by norm_num)
        omega
      simp only [natDigitsRev, if_neg hm0, List.reverse_cons, List.foldl_append,
        List.foldl_cons, List.foldl_nil, List.length_cons]
      rw [ih (m / 10) hdiv a]
      rw [digitVal_digitChar10 (Nat.mod_lt m (by norm_num)), Nat.pow_succ]
      have hmod := Nat.div_add_mod m 10
      have hx : (a * 10 ^ (natDigitsRev f (m / 10)).length + m / 10) * 10 + m % 10 =
          a * (10 ^ (natDigitsRev f (m / 10)).length * 10) + (10 * (m / 10) + m % 10) := by
        ring
      rw [hx, hmod]

theorem parseNatDigits_natRepr (m : Nat) : parseNatDigits (natRepr m) = m := by
  unfold natRepr parseNatDigits
  by_cases h : m = 0
  · subst h
    decide
  · rw [if_neg h]
    have := foldl_natDigitsRev m m (Nat.le_refl m) 0
    simpa using this

theorem natRepr_ne_nil (m : Nat) : natRepr m ≠ [] := by
  unfold natRepr
  by_cases h : m = 0
  · simp [h]
  · rw [if_neg h]
    obtain ⟨k, rfl⟩ : ∃ k, m = k + 1 := ⟨m - 1, by omega⟩
    simp [natDigitsRev, h]

theorem natRepr_digits (m : Nat) : ∀ c ∈ natRepr m, '0' ≤ c ∧ c ≤ '9' := by
  unfold natRepr
  by_cases h : m = 0
  · simp [h]
  · rw [if_neg h]
    intro c hc
    exact natDigitsRev_mem_digit m m c (List.mem_reverse.1 hc)

theorem allDigits_natRepr (m : Nat) : allDigits (natRepr m) = true :=
  allDigits_iff.2 (natRepr_digits m)

theorem parseIntField_intRepr (n : Int) : parseIntField (intRepr n) = some n := by
  cases n with
  | ofNat m =>
    obtain ⟨c, rest, hcr⟩ : ∃ c rest, natRepr m = c :: rest := by
      cases h : natRepr m with
      | nil => exact absurd h (natRepr_ne_nil m)
      | cons c rest => exact ⟨c, rest, rfl⟩
    have hdig : '0' ≤ c := (natRepr_digits m c (by rw [hcr]; simp)).1
    have hnotminus : ¬ c = '-' := by
      intro e
      subst e
      revert hdig
      decide
    show parseIntField (natRepr m) = some (Int.ofNat m)
    rw [hcr]
    simp only [parseIntField, if_neg hnotminus]
    rw [← hcr, if_pos (allDigits_natRepr m), parseNatDigits_natRepr]
    rfl
  | negSucc m =>
    show parseIntField ('-' :: natRepr (m + 1)) = some (Int.negSucc m)
    have hcond : natRepr (m + 1) ≠ [] ∧ allDigits (natRepr (m + 1)) = true :=
      ⟨natRepr_ne_nil (m + 1), allDigits_natRepr (m + 1)⟩
    simp only [parseIntField, if_pos rfl, if_pos hcond, parseNatDigits_natRepr, if_true]
    rfl

theorem intRepr_mem {n : Int} {c : Char} (hc : c ∈ intRepr n) :
    c = '-' ∨ ('0' ≤ c ∧ c ≤ '9') := by
  cases n with
  | ofNat m => exact Or.inr (natRepr_digits m c hc)
  | negSucc m =>
    simp only [intRepr, List.mem_cons] at hc
    rcases hc with rfl | hc
    · exact Or.inl rfl
    · exact Or.inr (natRepr_digits (m + 1) c hc)

theorem intRepr_plain {n : Int} : ∀ c ∈ intRepr n, plainChar c = true := by
  intro c hc
  rcases intRepr_mem hc with rfl | ⟨h1, h2⟩
  · decide
  · have h4 : c ≠ '$' := by intro e; subst e; revert h1 h2; decide
    have h5 : c ≠ ';' := by intro e; subst e; revert h1 h2; decide
    have h6 : c ≠ '*' := by intro e; subst e; revert h1 h2; decide
    have h7 : c ≠ '\n' := by intro e; subst e; revert h1 h2; decide
    simp [plainChar, h4, h5, h6, h7]

theorem intRepr_head_ne_space (n : Int) : (intRepr n).headD ' ' ≠ ' ' := by
  cases n with
  | ofNat m =>
    obtain ⟨c, rest, hcr⟩ : ∃ c rest, natRepr m = c :: rest := by
      cases h : natRepr m with
      | nil => exact absurd h (natRepr_ne_nil m)
      | cons c rest => exact ⟨c, rest, rfl⟩
    show (natRepr m).headD ' ' ≠ ' '
    rw [hcr]
    have hdig : '0' ≤ c := (natRepr_digits m c (by rw [hcr]; simp)).1
    intro e
    simp only [List.headD_cons] at e
    subst e
    revert hdig
    decide
  | negSucc m => simp [intRepr]

theorem intRepr_ne_nil (n : Int) : intRepr n ≠ [] := by
  cases n with
  | ofNat m => exact natRepr_ne_nil m
  | negSucc m => simp [intRepr]

theorem mapWithIdx_getElem? :
    ∀ (l : List α) (f : Nat → α → β) (j : Nat),
      (mapWithIdx f l)[j]? = l[j]?.map (f j) := by
  intro l
  induction l with
  | nil => intro f j; simp [mapWithIdx]
  | cons a t ih =>
    intro f j
    cases j with
    | zero => simp [mapWithIdx]
    | succ i =>
      simp only [mapWithIdx, List.getElem?_cons_succ]
      exact ih (fun i => f (i + 1)) i

theorem mapWithIdx_length : ∀ (l : List α) (f : Nat → α → β),
    (mapWithIdx f l).length = l.length := by
  intro l
  induction l with
  | nil => intro f; rfl
  | cons a t ih =>
    intro f
    simp only [mapWithIdx, List.length_cons, ih]

theorem mapWithIdx_congr_self :
    ∀ (l : List α) (f : Nat → α → α),
      (∀ j c, l[j]? = some c → f j c = c) → mapWithIdx f l = l := by
  intro l
  induction l with
  | nil => intro f _; rfl
  | cons a t ih =>
    intro f h
    simp only [mapWithIdx]
    rw [h 0 a (by simp), ih (fun i => f (i + 1)) fun j c hc => h (j + 1) c (by simpa using hc)]



/-! ### Sanitizer lemmas -/

theorem pyReplace_not_mem {a : Char} {s : List Char} (b : List Char) (h : a ∉ s) :
    pyReplace a b s = s := by
  induction s with
  | nil => rfl
  | cons c l ih =>
    have hca : ¬ c = a := fun e => h (by simp [e])
    have hl : a ∉ l := fun hm => h (List.mem_cons_of_mem c hm)
    simp [pyReplace, hca, ih hl]

theorem pyReplace_mem {a : Char} {b s : List Char} {c : Char}
    (hc : c ∈ pyReplace a b s) : c ∈ b ∨ (c ∈ s ∧ ¬ c = a) := by
  induction s with
  | nil => cases hc
  | cons x l ih =>
    simp only [pyReplace, List.mem_append] at hc
    rcases hc with hx | hl
    · by_cases hxa : x = a
      · rw [if_pos hxa] at hx
        exact Or.inl hx
      · rw [if_neg hxa] at hx
        simp only [List.mem_singleton] at hx
        subst hx
        exact Or.inr ⟨by simp, hxa⟩
    · rcases ih hl with h | ⟨h1, h2⟩
      · exact Or.inl h
      · exact Or.inr ⟨List.mem_cons_of_mem x h1, h2⟩

theorem sanitizeCell_str (s : List Char) :
    sanitizeCell (Cell.str s) =
      Cell.str (pyReplace ';' [','] (pyReplace '$' fallbackChars s)) := by
  simp only [sanitizeCell]
  by_cases h1 : containsSeq ['$'] s = true
  · by_cases h2 : containsSeq [';'] s = true
    · rw [if_pos h2, if_pos h1]
    · rw [if_neg h2, if_pos h1]
      have hsemi : ';' ∉ pyReplace '$' fallbackChars s := by
        intro hm
        rcases pyReplace_mem hm with hb | ⟨hs, _⟩
        · revert hb
          decide
        · exact absurd (containsSeq_singleton.2 hs) (by simp [Bool.not_eq_true] at h2; simp [h2])
      rw [pyReplace_not_mem [','] hsemi]
  · have hdol : '$' ∉ s := fun hm =>
      absurd (containsSeq_singleton.2 hm) (by simp [Bool.not_eq_true] at h1; simp [h1])
    rw [pyReplace_not_mem fallbackChars hdol]
    by_cases h2 : containsSeq [';'] s = true
    · rw [if_pos h2, if_neg h1]
    · rw [if_neg h2, if_neg h1]
      have hsemi : ';' ∉ s := fun hm =>
        absurd (containsSeq_singleton.2 hm) (by simp [Bool.not_eq_true] at h2; simp [h2])
      rw [pyReplace_not_mem [','] hsemi]

theorem sanitizeCell_intv (n : Int) : sanitizeCell (Cell.intv n) = Cell.intv n := rfl

theorem sanitizeCell_nan : sanitizeCell Cell.nan = Cell.nan := rfl

theorem sanitized_no_special {s : List Char} {c : Char}
    (hc : c ∈ pyReplace ';' [','] (pyReplace '$' fallbackChars s)) :
    ¬ c = '$' ∧ ¬ c = ';' := by
  rcases pyReplace_mem hc with hb | ⟨hmid, hne⟩
  · simp only [List.mem_singleton] at hb
    subst hb
    exact ⟨by decide, by decide⟩
  · rcases pyReplace_mem hmid with hb | ⟨_, hne2⟩
    · simp only [fallbackChars, List.mem_cons, List.mem_singleton, List.not_mem_nil, or_false] at hb
      rcases hb with rfl | rfl
      · exact ⟨by decide, hne⟩
      · exact ⟨by decide, hne⟩
    · exact ⟨hne2, hne⟩

theorem sanitizeCell_idem (c : Cell) : sanitizeCell (sanitizeCell c) = sanitizeCell c := by
  cases c with
  | str s =>
    rw [sanitizeCell_str]
    have h1 : containsSeq ['$'] (pyReplace ';' [','] (pyReplace '$' fallbackChars s)) = false :=
      containsSeq_eq_false_of_not_mem (by simp) fun hm => (sanitized_no_special hm).1 rfl
    have h2 : containsSeq [';'] (pyReplace ';' [','] (pyReplace '$' fallbackChars s)) = false :=
      containsSeq_eq_false_of_not_mem (by simp) fun hm => (sanitized_no_special hm).2 rfl
    simp only [sanitizeCell]
    rw [h1, h2]
    simp
  | intv n => rfl
  | nan => rfl

theorem sanitizeCell_plain {c : Cell} (h : goodCell c = true) : sanitizeCell c = c := by
  cases c with
  | str s =>
    have hplain : ∀ x ∈ s, plainChar x = true := by
      intro x hx
      simp only [goodCell, goodStrCell, Bool.and_eq_true, List.all_eq_true] at h
      exact h.1.1.2 x hx
    have h1 : '$' ∉ s := fun hm => by
      have := hplain '$' hm
      simp [plainChar] at this
    have h2 : ';' ∉ s := fun hm => by
      have := hplain ';' hm
      simp [plainChar] at this
    rw [sanitizeCell_str, pyReplace_not_mem fallbackChars h1, pyReplace_not_mem [','] h2]
  | intv n => rfl
  | nan => simp [goodCell] at h

theorem colIsStr_head (cols : List (List Char)) (r : List Cell) (rs : List (List Cell)) (j : Nat) :
    colIsStr ⟨cols, r :: rs⟩ j =
      match r[j]? with
      | some (Cell.str _) => true
      | _ => false := rfl

theorem colIsStr_sanitize (t : Table) (j : Nat) :
    colIsStr (sanitizeTable t) j = colIsStr t j := by
  cases t with
  | mk cols rows =>
    cases rows with
    | nil => rfl
    | cons r rs =>
      show colIsStr ⟨cols, List.map _ (r :: rs)⟩ j = colIsStr ⟨cols, r :: rs⟩ j
      rw [List.map_cons, colIsStr_head, colIsStr_head, mapWithIdx_getElem?]
      cases hq : r[j]? with
      | none => rfl
      | some c =>
        cases c with
        | str s =>
          simp only [Option.map_some']
          by_cases hC : j < cols.length ∧ colIsStr ⟨cols, r :: rs⟩ j = true
          · rw [if_pos hC, sanitizeCell_str]
          · rw [if_neg hC]
        | intv n =>
          simp only [Option.map_some']
          rw [sanitizeCell_intv, ite_self]
        | nan =>
          simp only [Option.map_some']
          rw [sanitizeCell_nan, ite_self]

theorem table_eq_of {a b : Table} (h1 : a.columns = b.columns) (h2 : a.rows = b.rows) :
    a = b := by
  cases a
  cases b
  cases h1
  cases h2
  rfl

theorem sanitizeTable_columns (t : Table) : (sanitizeTable t).columns = t.columns := rfl

theorem sanitizeTable_rows_get (t : Table) (i : Nat) :
    (sanitizeTable t).rows[i]? = t.rows[i]?.map fun r =>
      mapWithIdx (fun j c => if j < t.columns.length ∧ colIsStr t j = true then sanitizeCell c else c) r := by
  cases t with
  | mk cols rows => exact List.getElem?_map _ rows i

theorem sanitizeTable_idem (t : Table) : sanitizeTable (sanitizeTable t) = sanitizeTable t := by
  have hrows : (sanitizeTable (sanitizeTable t)).rows = (sanitizeTable t).rows := by
    apply List.ext_getElem?
    intro i
    rw [sanitizeTable_rows_get, sanitizeTable_rows_get]
    cases hi : t.rows[i]? with
    | none => rfl
    | some r =>
      simp only [Option.map_some']
      congr 1
      apply List.ext_getElem?
      intro j
      rw [mapWithIdx_getElem?, mapWithIdx_getElem?]
      cases hj : r[j]? with
      | none => rfl
      | some c =>
        simp only [Option.map_some']
        rw [sanitizeTable_columns, colIsStr_sanitize]
        by_cases hcond : j < t.columns.length ∧ colIsStr t j = true
        · rw [if_pos hcond, if_pos hcond, sanitizeCell_idem]
        · rw [if_neg hcond, if_neg hcond]
  exact table_eq_of rfl hrows

theorem sanitizeTable_plain {t : Table}
    (h : ∀ r ∈ t.rows, ∀ c ∈ r, goodCell c = true) : sanitizeTable t = t := by
  have hrows : (sanitizeTable t).rows = t.rows := by
    apply List.ext_getElem?
    intro i
    rw [sanitizeTable_rows_get]
    cases hi : t.rows[i]? with
    | none => rfl
    | some r =>
      simp only [Option.map_some']
      congr 1
      apply mapWithIdx_congr_self
      intro j c hc
      have hmem : c ∈ r := by
        obtain ⟨hlt, hval⟩ := List.getElem?_eq_some.1 hc
        exact hval ▸ List.getElem_mem hlt
      have hr : r ∈ t.rows := by
        obtain ⟨hlt, hval⟩ := List.getElem?_eq_some.1 hi
        exact hval ▸ List.getElem_mem hlt
      by_cases hcond : j < t.columns.length ∧ colIsStr t j = true
      · rw [if_pos hcond]
        exact sanitizeCell_plain (h r hr c hmem)
      · rw [if_neg hcond]
  exact table_eq_of rfl hrows

theorem replaceInvalidStore_spec :
    ∀ (hs : List Nat) (store : List Table), hs.Nodup →
      (replaceInvalidStore store hs).1 = hs ∧
      (∀ h ∈ hs, (replaceInvalidStore store hs).2[h]? = (store[h]?).map sanitizeTable) ∧
      (∀ h', h' ∉ hs → (replaceInvalidStore store hs).2[h']? = store[h']?) := by
  intro hs
  induction hs with
  | nil =>
    intro store _
    exact ⟨rfl, by simp, fun h' _ => rfl⟩
  | cons h hs ih =>
    intro store hnd
    have hnotin : h ∉ hs := (List.nodup_cons.1 hnd).1
    have hnds : hs.Nodup := (List.nodup_cons.1 hnd).2
    have hih := ih (store.set h (sanitizeTable (store.getD h emptyTable))) hnds
    have hunfold : replaceInvalidStore store (h :: hs) =
        (h :: (replaceInvalidStore (store.set h (sanitizeTable (store.getD h emptyTable))) hs).1,
         (replaceInvalidStore (store.set h (sanitizeTable (store.getD h emptyTable))) hs).2) := rfl
    rw [hunfold]
    refine ⟨by rw [hih.1], ?_, ?_⟩
    · intro x hx
      rcases List.mem_cons.1 hx with hxh | hxs
      · subst hxh
        rw [hih.2.2 x hnotin]
        by_cases hlen : x < store.length
        · rw [List.getElem?_set_eq_of_lt _ hlen, List.getD_eq_getElem?_getD]
          cases hg : store[x]? with
          | none =>
            rw [List.getElem?_eq_getElem hlen] at hg
            cases hg
          | some a => simp [hg]
        · rw [List.set_eq_of_length_le (by omega)]
          have hnone : store[x]? = none := List.getElem?_eq_none (by omega)
          rw [hnone]
          rfl
      · rw [hih.2.1 x hxs, List.getElem?_set_ne (fun e => hnotin (by rw [e]; exact hxs))]
    · intro h' hh
      have h1 : ¬ h = h' := fun e => hh (List.mem_cons.2 (Or.inl e.symm))
      have h2 : h' ∉ hs := fun e => hh (List.mem_cons_of_mem h e)
      rw [hih.2.2 h' h2, List.getElem?_set_ne h1]

/-! ### Terminator-scan lemmas -/

theorem readlineAt_head {buf : List Char} {p : Nat} {c : Char} (h : buf[p]? = some c) :
    ∃ u, (readlineAt buf p).1 = c :: u := by
  obtain ⟨hlt, hval⟩ := List.getElem?_eq_some.1 h
  have hd : buf.drop p = c :: buf.drop (p + 1) := by
    rw [List.drop_eq_getElem_cons hlt, hval]
  unfold readlineAt
  rw [hd]
  exact lineAt_cons c _

theorem readlineAt_le (buf : List Char) (p : Nat) : p ≤ (readlineAt buf p).2 := by
  unfold readlineAt
  exact Nat.le_add_right p _

theorem findTerminator_sound :
    ∀ (fuel : Nat) (buf : List Char) (pos : Nat),
      findTerminator buf fuel pos ≠ buf.length →
      pos ≤ findTerminator buf fuel pos ∧
      buf[findTerminator buf fuel pos]? = some '*' ∧
      firstIdxFrom ';' (readlineAt buf (findTerminator buf fuel pos)).1 = none ∧
      firstIdxFrom '*' (readlineAt buf (findTerminator buf fuel pos)).1 = some 0 := by
  intro fuel
  induction fuel with
  | zero => intro buf pos h; exact absurd rfl h
  | succ f ih =>
    intro buf pos h
    cases hf : findFrom buf '*' pos with
    | none =>
      rw [findTerminator, hf] at h
      exact absurd rfl h
    | some s0 =>
      by_cases hacc : firstIdxFrom ';' (readlineAt buf s0).1 = none ∧
          (firstIdxFrom '*' (readlineAt buf s0).1 = some 0 ∨
           firstIdxFrom '*' (readlineAt buf s0).1 = some 1)
      · have hres : findTerminator buf (f + 1) pos = s0 := by
          rw [findTerminator, hf]
          exact if_pos hacc
        rw [hres]
        obtain ⟨hchar, hle⟩ := findFrom_some hf
        obtain ⟨u, hu⟩ := readlineAt_head hchar
        refine ⟨hle, hchar, hacc.1, ?_⟩
        rw [hu]
        simp [firstIdxFrom]
      · have hres : findTerminator buf (f + 1) pos =
            findTerminator buf f (readlineAt buf s0).2 := by
          rw [findTerminator, hf]
          exact if_neg hacc
        rw [hres] at h ⊢
        have hrec := ih buf (readlineAt buf s0).2 h
        have h1 : pos ≤ s0 := (findFrom_some hf).2
        have h2 : s0 ≤ (readlineAt buf s0).2 := readlineAt_le buf s0
        exact ⟨by omega, hrec.2⟩

/-! ### Scan-loop invariants -/

theorem readlineAt_occurs (buf : List Char) (p : Nat) :
    ∃ x y, buf = x ++ ((readlineAt buf p).1 ++ y) := by
  obtain ⟨t, ht⟩ := lineAt_first (buf.drop p)
  refine ⟨buf.take p, t, ?_⟩
  conv_lhs => rw [← List.take_append_drop p buf]
  rw [ht]
  rfl

theorem getD_set_ne {data : List Table} {idx i : Nat} (v : Table) (h : ¬ idx = i) :
    (data.set idx v).getD i emptyTable = data.getD i emptyTable := by
  rw [List.getD_eq_getElem?_getD, List.getD_eq_getElem?_getD, List.getElem?_set_ne h]

theorem processNames_getD {buf line : List Char} {dollarIdx : Nat} {i : Nat}
    (hline : ∃ x y, buf = x ++ (line ++ y)) :
    ∀ (names : List (List Char)) (idx : Nat) (found : List Bool) (data : List Table)
      (pos : Nat),
      (idx ≤ i → i - idx < names.length →
        containsSeq (blockPattern (names.getD (i - idx) [])) buf = false) →
      data.getD i emptyTable = emptyTable →
      (processNames buf line dollarIdx names idx found data pos).2.1.getD i emptyTable =
        emptyTable := by
  intro names
  induction names with
  | nil => intro idx found data pos _ hdata; exact hdata
  | cons name rest ih =>
    intro idx found data pos hcond hdata
    by_cases hm : containsSeq (blockPattern name) line = true
    · have hstep : processNames buf line dollarIdx (name :: rest) idx found data pos =
          processNames buf line dollarIdx rest (idx + 1) (found.set idx true)
            (data.set idx
              (decodeBlock name
                ((buf.take (findTerminator buf (buf.length + 1) pos)).drop dollarIdx)))
            (findTerminator buf (buf.length + 1) pos) := by
        rw [processNames, if_pos hm]
      rw [hstep]
      by_cases hii : idx = i
      · exfalso
        subst hii
        have hin : containsSeq (blockPattern name) buf = true := by
          obtain ⟨x, y, rfl⟩ := hline
          exact containsSeq_of_middle x y hm
        have := hcond (Nat.le_refl idx) (by simp)
        rw [Nat.sub_self] at this
        simp only [List.getD_cons_zero] at this
        rw [hin] at this
        cases this
      · apply ih (idx + 1)
        · intro hle hlt
          have h0 := hcond (by omega) (by simp only [List.length_cons]; omega)
          rw [show i - idx = (i - (idx + 1)) + 1 by omega, List.getD_cons_succ] at h0
          exact h0
        · rw [getD_set_ne _ hii]
          exact hdata
    · rw [processNames, if_neg hm]
      exact hdata

theorem processNames_length (buf line : List Char) (dollarIdx : Nat) :
    ∀ (names : List (List Char)) (idx : Nat) (found : List Bool) (data : List Table)
      (pos : Nat),
      (processNames buf line dollarIdx names idx found data pos).2.1.length = data.length := by
  intro names
  induction names with
  | nil => intro idx found data pos; rfl
  | cons name rest ih =>
    intro idx found data pos
    by_cases hm : containsSeq (blockPattern name) line = true
    · rw [processNames, if_pos hm, ih]
      exact List.length_set ..
    · rw [processNames, if_neg hm]

theorem scanBlocks_getD {buf : List Char} {names : List (List Char)} {i : Nat}
    (hno : i < names.length → containsSeq (blockPattern (names.getD i [])) buf = false) :
    ∀ (fuel : Nat) (found : List Bool) (data : List Table) (pos : Nat),
      data.getD i emptyTable = emptyTable →
      (scanBlocks buf names fuel found data pos).getD i emptyTable = emptyTable := by
  intro fuel
  induction fuel with
  | zero => intro found data pos hdata; exact hdata
  | succ f ih =>
    intro found data pos hdata
    rw [scanBlocks]
    by_cases hc : found.contains false
    · rw [if_pos hc]
      cases hf : findFrom buf '$' pos with
      | none => exact hdata
      | some d =>
        apply ih
        apply processNames_getD (readlineAt_occurs buf d)
        · intro _ hlt
          simpa using hno (by simpa using hlt)
        · exact hdata
    · rw [if_neg hc]
      exact hdata

theorem scanBlocks_length (buf : List Char) (names : List (List Char)) :
    ∀ (fuel : Nat) (found : List Bool) (data : List Table) (pos : Nat),
      (scanBlocks buf names fuel found data pos).length = data.length := by
  intro fuel
  induction fuel with
  | zero => intro found data pos; rfl
  | succ f ih =>
    intro found data pos
    rw [scanBlocks]
    by_cases hc : found.contains false
    · rw [if_pos hc]
      cases hf : findFrom buf '$' pos with
      | none => rfl
      | some d => rw [ih, processNames_length]
    · rw [if_neg hc]

/-! ## Claim theorems -/

/-- Claim C2, counterexample: on a file holding block A before block B, the
request list B-then-A does NOT return both decoded tables; the table decoded
for B lands at request position 0, but A — although present and decodable on
its own, as the single-name read shows — is never matched, because the name
loop of the source stops at the first name whose pattern misses the header
line it examines, so the result at position 1 stays the empty table. -/
theorem claim_C2_counterexample :
    read_visum_file (mkFileAB 1 2) [['B'], ['A']] =
      Except.ok [⟨[['C']], [[Cell.intv 2]]⟩, emptyTable] ∧
    read_visum_file (mkFileAB 1 2) [['A']] =
      Except.ok [⟨[['C']], [[Cell.intv 1]]⟩] ∧
    emptyTable ≠ (⟨[['C']], [[Cell.intv 1]]⟩ : Table) := by
  decide

/-- Claim C2, amended: requested order is preserved for the blocks that are
found — each found block is stored at the request position of its name — but a
requested name can only match when every earlier name of the request list
matches the same header line; hence requesting B then A over a file holding A
then B yields the decoded table for B at position 0 and the empty table at
position 1, for every pair of one-digit cell payloads. -/
theorem claim_C2_amended :
    ∀ a b : Fin 10,
      read_visum_file (mkFileAB a b) [['B'], ['A']] =
        Except.ok [⟨[['C']], [[Cell.intv (b.val : Int)]]⟩, emptyTable] := by
  decide

/-- Claim C3, counterexample: the scan accepts the star of the line
a-semicolon-b-star-c as the terminator (result 3) although that line contains
a semicolon at column 1 and its star sits at column 3, both of which the claim
says must disqualify the candidate; the claimed terminator would be the lone
star at index 8. -/
theorem claim_C3_counterexample :
    findTerminator ['a', ';', 'b', '*', 'c', '\n', 'x', '\n', '*', '\n'] 11 0 = 3 ∧
    firstIdxFrom ';' (List.take 6 ['a', ';', 'b', '*', 'c', '\n', 'x', '\n', '*', '\n']) = some 1 ∧
    firstIdxFrom '*' (List.take 6 ['a', ';', 'b', '*', 'c', '\n', 'x', '\n', '*', '\n']) = some 3 ∧
    (3 : Nat) ≠ 8 := by
  decide

/-- Claim C3, amended: the scan re-reads each candidate line STARTING AT the
candidate star, so the star-at-column-0-or-1 test always passes and the
semicolon test only inspects the text from the star to the end of its line;
consequently a scan that ends anywhere but end-of-file ends at a star with no
semicolon between it and the line end, at or after the position the scan
started from. -/
theorem claim_C3_amended (buf : List Char) (fuel pos : Nat)
    (h : findTerminator buf fuel pos ≠ buf.length) :
    pos ≤ findTerminator buf fuel pos ∧
    buf[findTerminator buf fuel pos]? = some '*' ∧
    firstIdxFrom ';' (readlineAt buf (findTerminator buf fuel pos)).1 = none ∧
    firstIdxFrom '*' (readlineAt buf (findTerminator buf fuel pos)).1 = some 0 :=
  findTerminator_sound fuel buf pos h

/-- Witness for the amended C3 theorem at a concrete buffer. -/
theorem claim_C3_amended_witness :
    (findTerminator ['x', '\n', '*', '\n'] 5 0 ≠ (['x', '\n', '*', '\n'] : List Char).length) ∧
    (0 ≤ findTerminator ['x', '\n', '*', '\n'] 5 0 ∧
     (['x', '\n', '*', '\n'] : List Char)[findTerminator ['x', '\n', '*', '\n'] 5 0]? = some '*' ∧
     firstIdxFrom ';' (readlineAt ['x', '\n', '*', '\n'] (findTerminator ['x', '\n', '*', '\n'] 5 0)).1 = none ∧
     firstIdxFrom '*' (readlineAt ['x', '\n', '*', '\n'] (findTerminator ['x', '\n', '*', '\n'] 5 0)).1 = some 0) :=
  ⟨by decide, claim_C3_amended ['x', '\n', '*', '\n'] 5 0 (by decide)⟩

/-- Claim C4, counterexample: a file that writes the table name in lowercase
in its header is read back with the qualifying prefix still attached to the
first column name — prefix stripping is NOT insensitive to the case the file
uses, because the source splits on the pattern built from the UPPERCASED
requested name and the split is literal. -/
theorem claim_C4_counterexample :
    read_visum_file
        ['$', 'l', 'i', 'n', 'k', ':', 'N', 'O', ';', 'N', 'A', 'M', 'E', '\n', '1', ';', '2', '\n']
        [['l', 'i', 'n', 'k']] =
      Except.ok [⟨[['$', 'l', 'i', 'n', 'k', ':', 'N', 'O'], ['N', 'A', 'M', 'E']],
        [[Cell.intv 1, Cell.intv 2]]⟩] ∧
    (['$', 'l', 'i', 'n', 'k', ':', 'N', 'O'] : List Char) ≠ ['N', 'O'] := by
  decide

/-- Claim C4, amended: column normalization splits each header on the pattern
dollar-NAME-colon where NAME is the UPPERCASE of the requested name and keeps
the last piece; a header that carries exactly that uppercase pattern in front
of the attribute loses it, and a header in which the uppercase pattern does
not occur — in particular one whose table name is written in any other case —
is left unchanged. -/
theorem claim_C4_amended (name attr col : List Char)
    (hattr : containsSeq ('$' :: (pyUpper name ++ [':'])) attr = false)
    (hcol : containsSeq ('$' :: (pyUpper name ++ [':'])) col = false) :
    pySplitLast ('$' :: (pyUpper name ++ [':'])) (('$' :: (pyUpper name ++ [':'])) ++ attr) = attr ∧
    pySplitLast ('$' :: (pyUpper name ++ [':'])) col = col :=
  ⟨pySplitLast_strip (by simp) hattr, pySplitLast_not_contains hcol⟩

/-- Witness for the amended C4 theorem: requested name in lowercase, an
attribute stripped from the uppercase pattern, and a lowercase-named header
left untouched. -/
theorem claim_C4_amended_witness :
    (containsSeq ('$' :: (pyUpper ['l', 'i', 'n', 'k'] ++ [':'])) ['N', 'O'] = false) ∧
    (containsSeq ('$' :: (pyUpper ['l', 'i', 'n', 'k'] ++ [':']))
      ['$', 'l', 'i', 'n', 'k', ':', 'N', 'O'] = false) ∧
    (pySplitLast ('$' :: (pyUpper ['l', 'i', 'n', 'k'] ++ [':']))
        (('$' :: (pyUpper ['l', 'i', 'n', 'k'] ++ [':'])) ++ ['N', 'O']) = ['N', 'O'] ∧
     pySplitLast ('$' :: (pyUpper ['l', 'i', 'n', 'k'] ++ [':']))
        ['$', 'l', 'i', 'n', 'k', ':', 'N', 'O'] = ['$', 'l', 'i', 'n', 'k', ':', 'N', 'O']) :=
  ⟨by decide, by decide,
    claim_C4_amended ['l', 'i', 'n', 'k'] ['N', 'O'] ['$', 'l', 'i', 'n', 'k', ':', 'N', 'O']
      (by decide) (by decide)⟩

/-- Claim C5, counterexample: on an empty file the read call does not return a
result at all — the source memory-maps the opened file and mmap rejects a
zero-length map with an exception — so a block name absent from an EMPTY file
does not yield an empty table. -/
theorem claim_C5_counterexample :
    read_visum_file [] [['A']] = Except.error () ∧
    ∀ data : List Table, read_visum_file [] [['A']] ≠ Except.ok data := by
  constructor
  · rfl
  · intro data h
    cases h

/-- Claim C5, amended: on every NONEMPTY file, a requested block name whose
pattern occurs nowhere in the file yields the empty table at its request
position, the call returns normally, and the result has one entry per
requested name. -/
theorem claim_C5_amended (buf : List Char) (names : List (List Char)) (i : Nat)
    (hbuf : buf ≠ []) (hlt : i < names.length)
    (habs : containsSeq (blockPattern (names.getD i [])) buf = false) :
    ∃ data, read_visum_file buf names = Except.ok data ∧
      data.length = names.length ∧ data.getD i emptyTable = emptyTable := by
  unfold read_visum_file
  rw [if_neg hbuf]
  refine ⟨_, rfl, ?_, ?_⟩
  · rw [scanBlocks_length, List.length_replicate]
  · apply scanBlocks_getD (fun _ => habs)
    rw [List.getD_eq_getElem?_getD, List.getElem?_replicate, if_pos hlt]
    rfl

/-- Witness for the amended C5 theorem at a concrete one-character file. -/
theorem claim_C5_amended_witness :
    ((['X'] : List Char) ≠ []) ∧ (0 < ([['A']] : List (List Char)).length) ∧
    (containsSeq (blockPattern (([['A']] : List (List Char)).getD 0 [])) ['X'] = false) ∧
    (∃ data, read_visum_file ['X'] [['A']] = Except.ok data ∧
      data.length = ([['A']] : List (List Char)).length ∧
      data.getD 0 emptyTable = emptyTable) :=
  ⟨by decide, by decide, by decide,
    claim_C5_amended ['X'] [['A']] 0 (by decide) (by decide) (by decide)⟩

/-- Claim C6, counterexample: a string cell holding both a dollar sign and a
semicolon is NOT sanitized when it sits in a column whose first entry is not a
string — the source gates each column on the type of its first value — so the
exported table keeps the offending characters. -/
theorem claim_C6_counterexample :
    replace_invalid_visum_chars
        [⟨[['C']], [[Cell.intv 1], [Cell.str ['a', '$', 'b', ';', 'c']]]⟩] =
      [⟨[['C']], [[Cell.intv 1], [Cell.str ['a', '$', 'b', ';', 'c']]]⟩] ∧
    containsSeq ['$'] ['a', '$', 'b', ';', 'c'] = true ∧
    containsSeq [';'] ['a', '$', 'b', ';', 'c'] = true := by
  decide

/-- Claim C6, amended: sanitization acts per column and only on the columns
whose FIRST cell is a string (within the range of the column list); in those
columns a string cell has every dollar sign replaced by the fallback sequence
and every semicolon by a comma — exactly the two replace passes of the source,
which compose into that substitution — while integer and missing cells, and
every cell of a column that fails the gate, are unchanged. -/
theorem claim_C6_amended (t : Table) (i j : Nat) :
    ((sanitizeTable t).rows[i]?.bind fun r => r[j]?) =
      ((t.rows[i]?.bind fun r => r[j]?).map fun c =>
        if j < t.columns.length ∧ colIsStr t j = true then sanitizeCell c else c) ∧
    (∀ s, sanitizeCell (Cell.str s) =
      Cell.str (pyReplace ';' [','] (pyReplace '$' fallbackChars s))) ∧
    (∀ n, sanitizeCell (Cell.intv n) = Cell.intv n) ∧
    sanitizeCell Cell.nan = Cell.nan := by
  refine ⟨?_, sanitizeCell_str, sanitizeCell_intv, rfl⟩
  rw [sanitizeTable_rows_get]
  cases hi : t.rows[i]? with
  | none => rfl
  | some r =>
    simp only [Option.map_some', Option.some_bind]
    rw [mapWithIdx_getElem?]

/-- Claim C7: the sanitizer is idempotent on every list of tables. -/
theorem claim_C7_idempotent (dfs : List Table) :
    replace_invalid_visum_chars (replace_invalid_visum_chars dfs) =
      replace_invalid_visum_chars dfs := by
  unfold replace_invalid_visum_chars
  rw [List.map_map]
  apply List.map_congr_left
  intro t _
  exact sanitizeTable_idem t

/-- Claim C8: a create-mode write emits exactly the file-level header block in
front of the text an append-mode write emits, and every non-create mode emits
the same text as append mode — the header never appears in append mode, no
matter what was in the file before. -/
theorem claim_C8_header (dfs : List Table) (names : List (List Char)) (ft date : List Char) :
    export_visum_file dfs names ft date wMode =
      headerText date ft ++ export_visum_file dfs names ft date aMode ∧
    (∀ mode : List Char, mode ≠ wMode →
      export_visum_file dfs names ft date mode = export_visum_file dfs names ft date aMode) := by
  constructor
  · unfold export_visum_file exportText
    rw [if_pos rfl, if_neg (by decide : ¬ aMode = wMode)]
    simp
  · intro mode hm
    unfold export_visum_file exportText
    rw [if_neg hm, if_neg (by decide : ¬ aMode = wMode)]

/-- Witness for the C8 theorem, applying its second conjunct at the append
mode string itself. -/
theorem claim_C8_header_witness :
    (export_visum_file [] [] ['N'] ['d'] wMode =
      headerText ['d'] ['N'] ++ export_visum_file [] [] ['N'] ['d'] aMode) ∧
    (aMode ≠ wMode) ∧
    export_visum_file [] [] ['N'] ['d'] aMode = export_visum_file [] [] ['N'] ['d'] aMode :=
  ⟨(claim_C8_header [] [] ['N'] ['d']).1, by decide,
    (claim_C8_header [] [] ['N'] ['d']).2 aMode (by decide)⟩

/-- Claim C9: the encoding detector reports the UTF-8-with-BOM encoding
exactly when the first three bytes of the file are the byte-order mark, its
answer depends on those three bytes alone, and an unreadable file propagates
the I/O error unhandled. -/
theorem claim_C9_encoding (bs : List Nat) :
    (get_encoding bs = VisEncoding.utf8sig ↔ bs.take 3 = bomBytes) ∧
    get_encoding bs = get_encoding (bs.take 3) ∧
    get_encoding_io (some bs) = Except.ok (get_encoding bs) ∧
    get_encoding_io none = Except.error () := by
  refine ⟨?_, ?_, rfl, rfl⟩
  · unfold get_encoding
    by_cases h : bs.take 3 = bomBytes
    · simp [h]
    · simp [h]
  · unfold get_encoding
    rw [List.take_take]
    simp

/-- Claim C10, counterexample: after an export call the caller can still hold
a dollar sign in a string cell — sanitization is gated per column on the type
of the first cell, so a string cell below an integer first cell keeps its
dollar sign in the caller-visible store. -/
theorem claim_C10_counterexample :
    (export_visum_file_store [⟨[['C']], [[Cell.intv 7], [Cell.str ['x', '$', 'y']]]⟩]
        [0] [['T']] ['N'] ['d'] wMode).2 =
      [⟨[['C']], [[Cell.intv 7], [Cell.str ['x', '$', 'y']]]⟩] ∧
    containsSeq ['$'] ['x', '$', 'y'] = true := by
  decide

/-- Claim C10, amended: the export call mutates the caller-visible store in
place — the sanitizer returns exactly the handles it was given, the table
behind each distinct handed-over handle is replaced by its sanitized form
(per the column gate of C6), and every other table is untouched. -/
theorem claim_C10_amended (store : List Table) (handles : List Nat)
    (names : List (List Char)) (ft date mode : List Char) (hnd : handles.Nodup) :
    (export_visum_file_store store handles names ft date mode).2 =
      (replaceInvalidStore store handles).2 ∧
    (replaceInvalidStore store handles).1 = handles ∧
    (∀ h ∈ handles, (replaceInvalidStore store handles).2[h]? = (store[h]?).map sanitizeTable) ∧
    (∀ h', h' ∉ handles → (replaceInvalidStore store handles).2[h']? = store[h']?) := by
  obtain ⟨h1, h2, h3⟩ := replaceInvalidStore_spec handles store hnd
  exact ⟨rfl, h1, h2, h3⟩

/-- Witness for the amended C10 theorem on a one-table store. -/
theorem claim_C10_amended_witness :
    (([0] : List Nat).Nodup) ∧
    ((export_visum_file_store [⟨[['C']], [[Cell.str ['a', '$', 'b']]]⟩] [0] [['T']] ['N'] ['d'] wMode).2 =
      (replaceInvalidStore [⟨[['C']], [[Cell.str ['a', '$', 'b']]]⟩] [0]).2 ∧
     (replaceInvalidStore [⟨[['C']], [[Cell.str ['a', '$', 'b']]]⟩] [0]).1 = [0] ∧
     (∀ h ∈ ([0] : List Nat), (replaceInvalidStore [⟨[['C']], [[Cell.str ['a', '$', 'b']]]⟩] [0]).2[h]? =
       (([⟨[['C']], [[Cell.str ['a', '$', 'b']]]⟩] : List Table)[h]?).map sanitizeTable) ∧
     (∀ h', h' ∉ ([0] : List Nat) → (replaceInvalidStore [⟨[['C']], [[Cell.str ['a', '$', 'b']]]⟩] [0]).2[h']? =
       ([⟨[['C']], [[Cell.str ['a', '$', 'b']]]⟩] : List Table)[h']?)) :=
  ⟨by decide,
    claim_C10_amended [⟨[['C']], [[Cell.str ['a', '$', 'b']]]⟩] [0] [['T']] ['N'] ['d'] wMode
      (by decide)⟩

/-! ### Round-trip helper lemmas -/

theorem goodName_parts {name : List Char} (h : goodName name = true) :
    name ≠ [] ∧ (∀ c ∈ name, goodNameChar c = true) ∧ name ≠ versionChars := by
  simp only [goodName, Bool.and_eq_true, decide_eq_true_eq, List.all_eq_true] at h
  exact ⟨h.1.1, h.1.2, h.2⟩

theorem goodNameChar_not_special {c : Char} (h : goodNameChar c = true) :
    c ≠ '$' ∧ c ≠ ';' ∧ c ≠ '*' ∧ c ≠ '\n' ∧ c ≠ ':' := by
  simp only [goodNameChar, Bool.or_eq_true, Bool.and_eq_true, decide_eq_true_eq] at h
  rcases h with ⟨h1, h2⟩ | ⟨h1, h2⟩ <;>
    refine ⟨?_, ?_, ?_, ?_, ?_⟩ <;> (intro e; subst e; revert h1 h2; decide)

theorem plainChar_parts {c : Char} (h : plainChar c = true) :
    c ≠ '$' ∧ c ≠ ';' ∧ c ≠ '*' ∧ c ≠ '\n' := by
  simp only [plainChar, Bool.and_eq_true, decide_eq_true_eq] at h
  exact ⟨h.1.1.1, h.1.1.2, h.1.2, h.2⟩

theorem goodCol_parts {col : List Char} (h : goodCol col = true) :
    col ≠ [] ∧ (∀ x ∈ col, plainChar x = true) ∧ col.headD ' ' ≠ ' ' := by
  simp only [goodCol, Bool.and_eq_true, decide_eq_true_eq, List.all_eq_true] at h
  exact ⟨h.1.1, h.1.2, h.2⟩

theorem goodStrCell_parts {s : List Char} (h : goodStrCell s = true) :
    s ≠ [] ∧ (∀ x ∈ s, plainChar x = true) ∧ s.headD ' ' ≠ ' ' ∧ parseIntField s = none := by
  simp only [goodStrCell, Bool.and_eq_true, decide_eq_true_eq, List.all_eq_true,
    Option.isNone_iff_eq_none] at h
  exact ⟨h.1.1.1, h.1.1.2, h.1.2, h.2⟩

theorem goodTable_parts {cols : List (List Char)} {rows : List (List Cell)}
    (h : goodTable ⟨cols, rows⟩ = true) :
    cols ≠ [] ∧ (∀ c ∈ cols, goodCol c = true) ∧
    (∀ r ∈ rows, r.length = cols.length) ∧ (∀ r ∈ rows, ∀ c ∈ r, goodCell c = true) ∧
    (∀ j, j < cols.length → colHomog rows j = true) := by
  simp only [goodTable, Bool.and_eq_true, decide_eq_true_eq, List.all_eq_true,
    List.mem_range] at h
  refine ⟨h.1.1.1, h.1.1.2, ?_, ?_, h.2⟩
  · intro r hr
    exact (h.1.2 r hr).1
  · intro r hr
    exact (h.1.2 r hr).2

theorem pyUpper_head {s : List Char} (h : s.headD ' ' ≠ ' ') :
    (pyUpper s).headD ' ' ≠ ' ' := by
  cases s with
  | nil => exact h
  | cons a l =>
    simp only [pyUpper, List.map_cons, List.headD_cons] at h ⊢
    exact asciiUpper_ne_space h

theorem goodCol_up {col : List Char} (h : goodCol col = true) :
    pyUpper col ≠ [] ∧ (∀ x ∈ pyUpper col, plainChar x = true) ∧
      (pyUpper col).headD ' ' ≠ ' ' := by
  obtain ⟨h1, h2, h3⟩ := goodCol_parts h
  refine ⟨?_, ?_, pyUpper_head h3⟩
  · simp [pyUpper, h1]
  · intro x hx
    simp only [pyUpper, List.mem_map] at hx
    obtain ⟨a, ha, rfl⟩ := hx
    exact asciiUpper_plain (h2 a ha)

theorem joinSemi_mem {l : List (List Char)} {c : Char} (h : c ∈ joinSemi l) :
    c = ';' ∨ ∃ x ∈ l, c ∈ x := by
  induction l with
  | nil => cases h
  | cons x xs ih =>
    cases xs with
    | nil => exact Or.inr ⟨x, by simp, h⟩
    | cons y ys =>
      rw [show joinSemi (x :: y :: ys) = x ++ ';' :: joinSemi (y :: ys) from rfl] at h
      rcases List.mem_append.1 h with hx | hrest
      · exact Or.inr ⟨x, by simp, hx⟩
      · rcases List.mem_cons.1 hrest with rfl | hj
        · exact Or.inl rfl
        · rcases ih hj with h1 | ⟨z, hz, hc⟩
          · exact Or.inl h1
          · exact Or.inr ⟨z, List.mem_cons_of_mem x hz, hc⟩

theorem joinSemi_ne_nil {l : List (List Char)} (hne : l ≠ [])
    (hhd : ∀ x ∈ l, x ≠ []) : joinSemi l ≠ [] := by
  cases l with
  | nil => exact absurd rfl hne
  | cons x xs =>
    cases xs with
    | nil => exact hhd x (by simp)
    | cons y ys =>
      rw [show joinSemi (x :: y :: ys) = x ++ ';' :: joinSemi (y :: ys) from rfl]
      cases hx : x with
      | nil => simp
      | cons a l2 => simp

theorem rowsCsv_mem {rows : List (List Cell)} {c : Char} (h : c ∈ rowsCsv rows) :
    c = '\n' ∨ ∃ r ∈ rows, c ∈ joinSemi (r.map cellRender) := by
  induction rows with
  | nil => cases h
  | cons r rs ih =>
    rw [show rowsCsv (r :: rs) = joinSemi (r.map cellRender) ++ '\n' :: rowsCsv rs from rfl] at h
    rcases List.mem_append.1 h with hx | hrest
    · exact Or.inr ⟨r, by simp, hx⟩
    · rcases List.mem_cons.1 hrest with rfl | hj
      · exact Or.inl rfl
      · rcases ih hj with h1 | ⟨z, hz, hc⟩
        · exact Or.inl h1
        · exact Or.inr ⟨z, List.mem_cons_of_mem r hz, hc⟩

theorem cellRender_plain {cell : Cell} (h : goodCell cell = true) :
    ∀ c ∈ cellRender cell, plainChar c = true := by
  intro c hc
  cases cell with
  | str s => exact (goodStrCell_parts h).2.1 c hc
  | intv n => exact intRepr_plain c hc
  | nan => cases h

theorem cellRender_ne_nil {cell : Cell} (h : goodCell cell = true) :
    cellRender cell ≠ [] := by
  cases cell with
  | str s => exact (goodStrCell_parts h).1
  | intv n => exact intRepr_ne_nil n
  | nan => cases h

theorem cellRender_head {cell : Cell} (h : goodCell cell = true) :
    (cellRender cell).headD ' ' ≠ ' ' := by
  cases cell with
  | str s => exact (goodStrCell_parts h).2.2.1
  | intv n => exact intRepr_head_ne_space n
  | nan => cases h

theorem dropLeadingSpaces_id {s : List Char} (h : s.headD ' ' ≠ ' ') :
    dropLeadingSpaces s = s := by
  cases s with
  | nil => rfl
  | cons a l =>
    simp only [List.headD_cons] at h
    simp [dropLeadingSpaces, List.dropWhile_cons, h]

theorem splitFields_pieces {ps : List (List Char)} (hne : ps ≠ [])
    (hsemi : ∀ p ∈ ps, ';' ∉ p) (hhead : ∀ p ∈ ps, p.headD ' ' ≠ ' ') :
    splitFields (joinSemi ps) = ps := by
  unfold splitFields
  rw [splitOnChar_joinSemi hne hsemi]
  cases ps with
  | nil => exact absurd rfl hne
  | cons p pr =>
    simp only
    rw [List.map_congr_left fun x hx => dropLeadingSpaces_id (hhead x (List.mem_cons_of_mem p hx))]
    simp

theorem splitFields_with_head {pfx : List Char} {ps : List (List Char)}
    (hpfx : ';' ∉ pfx) (hne : ps ≠ []) (hsemi : ∀ p ∈ ps, ';' ∉ p)
    (hhead : ∀ p ∈ ps, p.headD ' ' ≠ ' ') :
    splitFields (pfx ++ joinSemi ps) = (pfx ++ ps.headD []) :: ps.tail := by
  unfold splitFields
  rw [splitOnChar_glue _ hpfx, splitOnChar_joinSemi hne hsemi]
  cases ps with
  | nil => exact absurd rfl hne
  | cons p pr =>
    simp only [List.headD_cons, List.tail_cons]
    rw [List.map_congr_left fun x hx => dropLeadingSpaces_id (hhead x (List.mem_cons_of_mem p hx))]
    simp

theorem colHomog_int {rows : List (List Cell)} {j : Nat} (hh : colHomog rows j = true)
    {r : List Cell} {m : Int} (hr : r ∈ rows) (hc : r[j]? = some (Cell.intv m)) :
    ∀ r2 ∈ rows, ∃ m2, r2[j]? = some (Cell.intv m2) := by
  simp only [colHomog, Bool.or_eq_true, List.all_eq_true] at hh
  rcases hh with hint | hstr
  · intro r2 hr2
    have h2 := hint r2 hr2
    cases hq : r2[j]? with
    | none => rw [hq] at h2; cases h2
    | some c =>
      cases c with
      | intv m2 => exact ⟨m2, rfl⟩
      | str s => rw [hq] at h2; cases h2
      | nan => rw [hq] at h2; cases h2
  · exfalso
    have h2 := hstr r hr
    rw [hc] at h2
    cases h2

theorem all_int_fields {rows : List (List Cell)} {j : Nat}
    (h : ∀ r ∈ rows, ∃ m, r[j]? = some (Cell.intv m)) :
    (rows.map (fun r => r.map (fun c => some (cellRender c)))).all
      (fun r =>
        match r.getD j none with
        | some f => (parseIntField f).isSome
        | none => true) = true := by
  rw [List.all_eq_true]
  intro pr hpr
  rw [List.mem_map] at hpr
  obtain ⟨r, hr, rfl⟩ := hpr
  obtain ⟨m, hm⟩ := h r hr
  rw [List.getD_eq_getElem?_getD, List.getElem?_map, hm]
  simp only [Option.map_some', Option.getD_some, cellRender]
  rw [parseIntField_intRepr]
  rfl

theorem exists_str_field {rows : List (List Cell)} {j : Nat} {r : List Cell} {s : List Char}
    (hr : r ∈ rows) (hc : r[j]? = some (Cell.str s)) (hp : parseIntField s = none) :
    (rows.map (fun r => r.map (fun c => some (cellRender c)))).all
      (fun r =>
        match r.getD j none with
        | some f => (parseIntField f).isSome
        | none => true) = false := by
  cases hall : (rows.map (fun r => r.map (fun c => some (cellRender c)))).all
      (fun r =>
        match r.getD j none with
        | some f => (parseIntField f).isSome
        | none => true) with
  | false => rfl
  | true =>
    exfalso
    rw [List.all_eq_true] at hall
    have hmem : r.map (fun c => some (cellRender c)) ∈
        rows.map (fun r => r.map (fun c => some (cellRender c))) :=
      List.mem_map_of_mem _ hr
    have := hall _ hmem
    rw [List.getD_eq_getElem?_getD, List.getElem?_map, hc] at this
    simp only [Option.map_some', Option.getD_some, cellRender] at this
    rw [hp] at this
    cases this

theorem decodeField_roundtrip {rows : List (List Cell)} {j : Nat} {r : List Cell} {c : Cell}
    (hh : colHomog rows j = true) (hr : r ∈ rows) (hc : r[j]? = some c)
    (hgood : goodCell c = true) :
    decodeField
      ((rows.map (fun r => r.map (fun c => some (cellRender c)))).all
        (fun r =>
          match r.getD j none with
          | some f => (parseIntField f).isSome
          | none => true))
      (some (cellRender c)) = c := by
  cases c with
  | intv m =>
    rw [all_int_fields (colHomog_int hh hr hc)]
    obtain ⟨c0, f0, hcr⟩ : ∃ c0 f0, intRepr m = c0 :: f0 := by
      cases hi : intRepr m with
      | nil => exact absurd hi (intRepr_ne_nil m)
      | cons c0 f0 => exact ⟨c0, f0, rfl⟩
    show decodeField true (some (intRepr m)) = Cell.intv m
    rw [hcr]
    simp only [decodeField]
    rw [← hcr, parseIntField_intRepr]
    simp
  | str s =>
    obtain ⟨hne, _, _, hp⟩ := goodStrCell_parts hgood
    rw [exists_str_field hr hc hp]
    obtain ⟨c0, f0, hcr⟩ : ∃ c0 f0, s = c0 :: f0 := by
      cases hi : s with
      | nil => exact absurd hi hne
      | cons c0 f0 => exact ⟨c0, f0, rfl⟩
    show decodeField false (some s) = Cell.str s
    rw [hcr]
    simp only [decodeField]
    simp
  | nan => cases hgood

theorem decode_csv_run {hdr : List Char} {rows : List (List Cell)}
    (hhdr_ne : hdr ≠ []) (hhdr_nl : '\n' ∉ hdr)
    (hrows_len : ∀ r ∈ rows, r.length = (splitFields hdr).length)
    (hcells : ∀ r ∈ rows, ∀ c ∈ r, goodCell c = true)
    (hhom : ∀ j, j < (splitFields hdr).length → colHomog rows j = true) :
    decode_csv (hdr ++ '\n' :: rowsCsv rows) = ⟨splitFields hdr, rows⟩ := by
  have hcols_pos : 0 < (splitFields hdr).length := by
    unfold splitFields
    cases hsp : splitOnChar ';' hdr with
    | nil => exact absurd hsp (splitOnChar_ne_nil ';' hdr)
    | cons f fs => simp
  have hrow_ne : ∀ r ∈ rows, r ≠ [] := by
    intro r hr he
    rw [he] at hr
    have := hrows_len [] hr
    simp at this
    omega
  have hnonl : ∀ r ∈ rows, '\n' ∉ joinSemi (r.map cellRender) := by
    intro r hr hmem
    rcases joinSemi_mem hmem with h1 | ⟨x, hx, hcx⟩
    · cases h1
    · rw [List.mem_map] at hx
      obtain ⟨cell, hcell, rfl⟩ := hx
      have := plainChar_parts (cellRender_plain (hcells r hr cell hcell) _ hcx)
      exact this.2.2.2 rfl
  have hlinene : ∀ r ∈ rows, joinSemi (r.map cellRender) ≠ [] := by
    intro r hr
    apply joinSemi_ne_nil
    · simp [hrow_ne r hr]
    · intro x hx
      rw [List.mem_map] at hx
      obtain ⟨cell, hcell, rfl⟩ := hx
      exact cellRender_ne_nil (hcells r hr cell hcell)
  have hlines : (splitOnChar '\n' (hdr ++ '\n' :: rowsCsv rows)).filter (· ≠ []) =
      hdr :: rows.map (fun r => joinSemi (r.map cellRender)) := by
    rw [splitOnChar_append_sep _ hhdr_nl, splitOnChar_rowsCsv hnonl]
    rw [List.filter_cons_of_pos (by simpa using hhdr_ne), List.filter_append]
    rw [List.filter_eq_self.2 (by
      intro a ha
      rw [List.mem_map] at ha
      obtain ⟨r, hr, rfl⟩ := ha
      simpa using hlinene r hr)]
    simp
  unfold decode_csv
  rw [hlines]
  simp only
  have hfields : (rows.map (fun r => joinSemi (r.map cellRender))).map splitFields =
      rows.map (fun r => r.map cellRender) := by
    rw [List.map_map]
    apply List.map_congr_left
    intro r hr
    show splitFields (joinSemi (r.map cellRender)) = r.map cellRender
    apply splitFields_pieces
    · simp [hrow_ne r hr]
    · intro p hp
      rw [List.mem_map] at hp
      obtain ⟨cell, hcell, rfl⟩ := hp
      intro hmem
      exact (plainChar_parts (cellRender_plain (hcells r hr cell hcell) _ hmem)).2.1 rfl
    · intro p hp
      rw [List.mem_map] at hp
      obtain ⟨cell, hcell, rfl⟩ := hp
      exact cellRender_head (hcells r hr cell hcell)
  rw [hfields]
  have hkeep : (rows.map (fun r => r.map cellRender)).filter
      (fun r => r.length ≤ (splitFields hdr).length) = rows.map (fun r => r.map cellRender) := by
    apply List.filter_eq_self.2
    intro a ha
    rw [List.mem_map] at ha
    obtain ⟨r, hr, rfl⟩ := ha
    simp [hrows_len r hr]
  rw [hkeep]
  have hpad : (rows.map (fun r => r.map cellRender)).map
      (fun r => r.map some ++ List.replicate ((splitFields hdr).length - r.length)
        (none : Option (List Char))) =
      rows.map (fun r => r.map (fun c => some (cellRender c))) := by
    rw [List.map_map]
    apply List.map_congr_left
    intro r hr
    show (r.map cellRender).map some ++ _ = _
    rw [List.map_map]
    have hlen : (r.map cellRender).length = (splitFields hdr).length := by
      simp [hrows_len r hr]
    rw [hlen, Nat.sub_self, List.replicate_zero, List.append_nil]
    rfl
  rw [hpad]
  have hfinal : (rows.map (fun r => r.map (fun c => some (cellRender c)))).map
      (fun r => mapWithIdx (fun j f => decodeField
        ((rows.map (fun r => r.map (fun c => some (cellRender c)))).all
          (fun r =>
            match r.getD j none with
            | some f => (parseIntField f).isSome
            | none => true)) f) r) = rows := by
    apply List.ext_getElem?
    intro i
    rw [List.getElem?_map, List.getElem?_map]
    cases hi : rows[i]? with
    | none => rfl
    | some r =>
      have hrmem : r ∈ rows := by
        obtain ⟨hlt, hval⟩ := List.getElem?_eq_some.1 hi
        exact hval ▸ List.getElem_mem hlt
      simp only [Option.map_some']
      congr 1
      apply List.ext_getElem?
      intro j
      rw [mapWithIdx_getElem?, List.getElem?_map]
      cases hj : r[j]? with
      | none => rfl
      | some c =>
        simp only [Option.map_some']
        congr 1
        have hcmem : c ∈ r := by
          obtain ⟨hlt, hval⟩ := List.getElem?_eq_some.1 hj
          exact hval ▸ List.getElem_mem hlt
        have hjlt : j < (splitFields hdr).length := by
          obtain ⟨hlt, _⟩ := List.getElem?_eq_some.1 hj
          rw [← hrows_len r hrmem]
          exact hlt
        exact decodeField_roundtrip (hhom j hjlt) hrmem hj (hcells r hrmem c hcmem)
  rw [hfinal]

theorem drop_len_append (A R : List Char) : (A ++ R).drop A.length = R := by
  simp

theorem findFrom_decomp {buf A R : List Char} {c : Char} {pos : Nat}
    (hbuf : buf = A ++ R) (hpos : pos = A.length) :
    findFrom buf c pos = (firstIdxFrom c R).map (· + pos) := by
  subst hbuf
  unfold findFrom
  rw [hpos, drop_len_append]

theorem readlineAt_decomp {buf A R : List Char} {pos : Nat}
    (hbuf : buf = A ++ R) (hpos : pos = A.length) :
    readlineAt buf pos = ((lineAt R).1, pos + (lineAt R).2) := by
  subst hbuf
  unfold readlineAt
  rw [hpos, drop_len_append]

theorem firstIdx_dollar_after {x T : List Char} (hx : '$' ∉ x) :
    firstIdxFrom '$' (x ++ '$' :: T) = some x.length := by
  rw [firstIdxFrom_append_right _ hx]
  simp [firstIdxFrom]

theorem pattern_no_colon {name L : List Char} (h : ':' ∉ L) :
    containsSeq (blockPattern name) L = false :=
  containsSeq_eq_false_of_not_mem (by simp [blockPattern]) h

theorem colon_free_eq {xs ys a b : List Char} (hx : ':' ∉ xs) (hy : ':' ∉ ys)
    (h : xs ++ ':' :: a = ys ++ ':' :: b) : xs = ys := by
  induction xs generalizing ys with
  | nil =>
    cases ys with
    | nil => rfl
    | cons y ys2 =>
      rw [List.nil_append, List.cons_append] at h
      injection h with h1 _
      exact absurd (by simp [← h1]) hy
  | cons x xs2 ih =>
    cases ys with
    | nil =>
      rw [List.nil_append, List.cons_append] at h
      injection h with h1 _
      exact absurd (by simp [h1]) hx
    | cons y ys2 =>
      rw [List.cons_append, List.cons_append] at h
      injection h with h1 h2
      have hx2 : ':' ∉ xs2 := fun hm => hx (List.mem_cons_of_mem x hm)
      have hy2 : ':' ∉ ys2 := fun hm => hy (List.mem_cons_of_mem y hm)
      rw [h1, ih hx2 hy2 h2]

theorem pattern_not_at_head {name T : List Char}
    (hdollar : '$' ∉ T)
    (hpre : startsWithSeq (name ++ [':']) T = false) :
    containsSeq (blockPattern name) ('$' :: T) = false := by
  cases hc : containsSeq (blockPattern name) ('$' :: T) with
  | false => rfl
  | true =>
    exfalso
    obtain ⟨a, b, hab⟩ := (containsSeq_iff _ _).1 hc
    cases a with
    | nil =>
      rw [List.nil_append] at hab
      unfold blockPattern at hab
      rw [List.cons_append] at hab
      injection hab with _ h2
      have : startsWithSeq (name ++ [':']) T = true :=
        (startsWithSeq_iff _ _).2 ⟨b, by rw [h2]⟩
      rw [this] at hpre
      cases hpre
    | cons c a2 =>
      rw [List.cons_append] at hab
      injection hab with _ h2
      apply hdollar
      rw [h2]
      have : '$' ∈ blockPattern name := by simp [blockPattern]
      simp [List.mem_append, this]

theorem processNames_skip {buf line : List Char} {dIdx : Nat} {name : List Char}
    {idx : Nat} {found : List Bool} {data : List Table} {pos : Nat}
    (h : containsSeq (blockPattern name) line = false) :
    processNames buf line dIdx [name] idx found data pos = (found, data, pos) := by
  rw [processNames, if_neg (by rw [h]; exact Bool.false_ne_true)]

theorem processNames_hit {buf line : List Char} {dIdx : Nat} {name : List Char}
    {idx : Nat} {found : List Bool} {data : List Table} {pos : Nat}
    (h : containsSeq (blockPattern name) line = true) :
    processNames buf line dIdx [name] idx found data pos =
      (found.set idx true,
       data.set idx (decodeBlock name
         ((buf.take (findTerminator buf (buf.length + 1) pos)).drop dIdx)),
       findTerminator buf (buf.length + 1) pos) := by
  rw [processNames, if_pos h]
  rfl

theorem scan_step_skip {buf : List Char} {names : List (List Char)} {fuel pos d : Nat}
    {found : List Bool} {data : List Table}
    (hc : found.contains false = true)
    (hf : findFrom buf '$' pos = some d)
    (hnom : processNames buf (readlineAt buf d).1 d names 0 found data (readlineAt buf d).2 =
      (found, data, (readlineAt buf d).2)) :
    scanBlocks buf names (fuel + 1) found data pos =
      scanBlocks buf names fuel found data (readlineAt buf d).2 := by
  rw [scanBlocks, if_pos hc, hf]
  show scanBlocks buf names fuel
      (processNames buf (readlineAt buf d).1 d names 0 found data (readlineAt buf d).2).1
      (processNames buf (readlineAt buf d).1 d names 0 found data (readlineAt buf d).2).2.1
      (processNames buf (readlineAt buf d).1 d names 0 found data (readlineAt buf d).2).2.2 =
    scanBlocks buf names fuel found data (readlineAt buf d).2
  rw [hnom]

theorem scan_step_skip2 {buf : List Char} {names : List (List Char)} {fuel pos d pos2 : Nat}
    {line : List Char} {found : List Bool} {data : List Table}
    (hc : found.contains false = true)
    (hf : findFrom buf '$' pos = some d)
    (hrl : readlineAt buf d = (line, pos2))
    (hnom : processNames buf line d names 0 found data pos2 = (found, data, pos2)) :
    scanBlocks buf names (fuel + 1) found data pos =
      scanBlocks buf names fuel found data pos2 := by
  rw [scanBlocks, if_pos hc, hf]
  show scanBlocks buf names fuel
      (processNames buf (readlineAt buf d).1 d names 0 found data (readlineAt buf d).2).1
      (processNames buf (readlineAt buf d).1 d names 0 found data (readlineAt buf d).2).2.1
      (processNames buf (readlineAt buf d).1 d names 0 found data (readlineAt buf d).2).2.2 =
    scanBlocks buf names fuel found data pos2
  rw [hrl]
  show scanBlocks buf names fuel
      (processNames buf line d names 0 found data pos2).1
      (processNames buf line d names 0 found data pos2).2.1
      (processNames buf line d names 0 found data pos2).2.2 =
    scanBlocks buf names fuel found data pos2
  rw [hnom]

theorem scan_step_hit2 {buf : List Char} {name0 : List Char} {fuel pos d pos2 : Nat}
    {line : List Char} {found : List Bool} {data : List Table}
    (hc : found.contains false = true)
    (hf : findFrom buf '$' pos = some d)
    (hrl : readlineAt buf d = (line, pos2))
    (hm : containsSeq (blockPattern name0) line = true) :
    scanBlocks buf [name0] (fuel + 1) found data pos =
      scanBlocks buf [name0] fuel (found.set 0 true)
        (data.set 0 (decodeBlock name0
          ((buf.take (findTerminator buf (buf.length + 1) pos2)).drop d)))
        (findTerminator buf (buf.length + 1) pos2) := by
  rw [scanBlocks, if_pos hc, hf]
  show scanBlocks buf [name0] fuel
      (processNames buf (readlineAt buf d).1 d [name0] 0 found data (readlineAt buf d).2).1
      (processNames buf (readlineAt buf d).1 d [name0] 0 found data (readlineAt buf d).2).2.1
      (processNames buf (readlineAt buf d).1 d [name0] 0 found data (readlineAt buf d).2).2.2 =
    _
  rw [hrl]
  show scanBlocks buf [name0] fuel
      (processNames buf line d [name0] 0 found data pos2).1
      (processNames buf line d [name0] 0 found data pos2).2.1
      (processNames buf line d [name0] 0 found data pos2).2.2 =
    _
  rw [processNames_hit hm]

theorem scan_step_stop {buf : List Char} {names : List (List Char)} {fuel pos : Nat}
    {found : List Bool} {data : List Table}
    (hc : found.contains false = false) :
    scanBlocks buf names (fuel + 1) found data pos = data := by
  rw [scanBlocks, if_neg (by rw [hc]; exact Bool.false_ne_true)]

/-- Claim C1, counterexample: exporting a table under the lowercase block name
n and reading it back under the same name returns the first column as the
unstripped header (the file writes the name in the case given, while the
column normalization splits on the uppercased name), so the column names do
not match the original even up to case. -/
theorem claim_C1_counterexample :
    read_visum_file
        (export_visum_file [⟨[['A']], [[Cell.str ['x']]]⟩] [['n']] ['N', 'e', 't']
          ['0', '1', '/', '0', '2', '/', '2', '0', '2', '4'] wMode) [['n']] =
      Except.ok [⟨[['$', 'n', ':', 'A']], [[Cell.str ['x']]]⟩] ∧
    pyUpper ['$', 'n', ':', 'A'] ≠ pyUpper ['A'] := by
  constructor
  · rfl
  · decide

theorem read_run (name ft date : List Char) (cols : List (List Char))
    (rows : List (List Cell))
    (hname : goodName name = true) (hft : dollarFree ft = true)
    (hdate : dollarFree date = true)
    (htab : goodTable ⟨cols, rows⟩ = true) :
    read_visum_file
      (headerPart1 ++ (date ++ (headerPart2 ++ (ft ++ (headerPart3 ++ (banner1 ++ (name ++
        (banner2 ++ (name ++ (':' :: (joinSemi (cols.map pyUpper) ++
          ('\n' :: rowsCsv rows)))))))))))) [name] =
      Except.ok [({ columns := cols.map pyUpper, rows := rows } : Table)] := by
  obtain ⟨hn_ne, hn_good, hn_ver⟩ := goodName_parts hname
  obtain ⟨hc_ne, hc_good, hr_len, hr_cells, hhom⟩ := goodTable_parts htab
  set upJ : List Char := joinSemi (cols.map pyUpper) with hupJ
  set RT : List Char := rowsCsv rows with hRT
  set BUF : List Char := headerPart1 ++ (date ++ (headerPart2 ++ (ft ++ (headerPart3 ++
    (banner1 ++ (name ++ (banner2 ++ (name ++ (':' :: (upJ ++ ('\n' :: RT))))))))))) with hBUF
  have hname_nd : '$' ∉ name := fun hm => (goodNameChar_not_special (hn_good _ hm)).1 rfl
  have hname_ns : ';' ∉ name := fun hm => (goodNameChar_not_special (hn_good _ hm)).2.1 rfl
  have hname_nl : '\n' ∉ name := fun hm =>
    (goodNameChar_not_special (hn_good _ hm)).2.2.2.1 rfl
  have hname_nc : ':' ∉ name := fun hm =>
    (goodNameChar_not_special (hn_good _ hm)).2.2.2.2 rfl
  have hft_nd : '$' ∉ ft := by
    intro hm
    simp only [dollarFree, List.all_eq_true, decide_eq_true_eq] at hft
    exact hft _ hm rfl
  have hdate_nd : '$' ∉ date := by
    intro hm
    simp only [dollarFree, List.all_eq_true, decide_eq_true_eq] at hdate
    exact hdate _ hm rfl
  have hups : ∀ u ∈ cols.map pyUpper, u ≠ [] ∧ (∀ x ∈ u, plainChar x = true) ∧
      u.headD ' ' ≠ ' ' := by
    intro u hu
    rw [List.mem_map] at hu
    obtain ⟨c, hcm, rfl⟩ := hu
    exact goodCol_up (hc_good c hcm)
  have hJ_nl : '\n' ∉ upJ := by
    rw [hupJ]
    intro hm
    rcases joinSemi_mem hm with h | ⟨x, hx, hcx⟩
    · exact absurd h (by decide)
    · exact (plainChar_parts ((hups x hx).2.1 _ hcx)).2.2.2 rfl
  have hRT_ns : '*' ∉ RT := by
    rw [hRT]
    intro hm
    rcases rowsCsv_mem hm with h | ⟨r, hr, hcx⟩
    · exact absurd h (by decide)
    · rcases joinSemi_mem hcx with h2 | ⟨x, hx, hcx2⟩
      · exact absurd h2 (by decide)
      · rw [List.mem_map] at hx
        obtain ⟨cell, hcell, rfl⟩ := hx
        exact (plainChar_parts (cellRender_plain (hr_cells r hr cell hcell) _ hcx2)).2.2.1 rfl
  have hhdr0_nl : '\n' ∉ ('$' :: (name ++ ':' :: upJ) : List Char) := by
    intro hm
    rcases List.mem_cons.1 hm with h | h
    · exact absurd h (by decide)
    · rcases List.mem_append.1 h with h2 | h2
      · exact hname_nl h2
      · rcases List.mem_cons.1 h2 with h3 | h3
        · exact absurd h3 (by decide)
        · exact hJ_nl h3
  set x3 : List Char := '\n' :: (tenPiece ++ (ft ++ (headerPart3 ++ (banner1 ++
    (name ++ ['\n', '*', '\n']))))) with hx3
  set A4 : List Char := (visionLine ++ ['\n']) ++ ((['*', ' '] ++ (date ++ ['\n'])) ++
    (versionLine ++ ['\n'])) with hA4
  set A5 : List Char := A4 ++ x3 with hA5
  set A6 : List Char := A5 ++ (('$' :: (name ++ ':' :: upJ)) ++ ['\n']) with hA6
  have hlenA2 : (visionLine ++ ['\n'] : List Char).length = 8 := by decide
  have hlenA3 : ((visionLine ++ ['\n']) ++ (['*', ' '] ++ (date ++ ['\n']))).length =
      date.length + 11 := by
    simp only [List.length_append, List.length_cons, List.length_nil, visionLine]
    omega
  have hlenA4 : A4.length = date.length + 50 := by
    rw [hA4]
    simp only [List.length_append, List.length_cons, List.length_nil, visionLine,
      versionLine, versionTail]
    omega
  have hlenx3 : x3.length = ft.length + name.length + 31 := by
    rw [hx3]
    simp only [List.length_append, List.length_cons, List.length_nil, tenPiece,
      headerPart3, banner1]
    omega
  have hlenA5 : A5.length = date.length + ft.length + name.length + 81 := by
    rw [hA5]
    simp only [List.length_append]
    rw [hlenA4, hlenx3]
    omega
  have hlenA6 : A6.length = date.length + ft.length + 2 * name.length + upJ.length + 84 := by
    rw [hA6]
    simp only [List.length_append, List.length_cons, List.length_nil]
    rw [hlenA5]
    omega
  have shape1 : BUF = visionLine ++ ('\n' :: (['*', ' '] ++ (date ++ (headerPart2 ++ (ft ++
      (headerPart3 ++ (banner1 ++ (name ++ (banner2 ++ (name ++ (':' :: (upJ ++
        ('\n' :: RT))))))))))))) := by
    rw [hBUF]
    simp [headerPart1, visionLine]
  have shape2 : BUF = (visionLine ++ ['\n']) ++ ((['*', ' '] ++ (date ++ ['\n'])) ++
      ('$' :: (versionTail ++ ('\n' :: ('\n' :: (tenPiece ++ (ft ++ (headerPart3 ++
        (banner1 ++ (name ++ (['\n', '*', '\n'] ++ ('$' :: (name ++ (':' :: (upJ ++
          ('\n' :: RT)))))))))))))))) := by
    rw [hBUF]
    simp [headerPart1, headerPart2, visionLine, versionTail, tenPiece, banner2]
  have shape3 : BUF = ((visionLine ++ ['\n']) ++ (['*', ' '] ++ (date ++ ['\n']))) ++
      (versionLine ++ ('\n' :: ('\n' :: (tenPiece ++ (ft ++ (headerPart3 ++ (banner1 ++
        (name ++ (['\n', '*', '\n'] ++ ('$' :: (name ++ (':' :: (upJ ++
          ('\n' :: RT)))))))))))))) := by
    rw [hBUF]
    simp [headerPart1, headerPart2, visionLine, versionLine, versionTail, tenPiece, banner2]
  have shape4 : BUF = A4 ++ (x3 ++ ('$' :: (name ++ (':' :: (upJ ++ ('\n' :: RT)))))) := by
    rw [hBUF, hA4, hx3]
    simp [headerPart1, headerPart2, visionLine, versionLine, versionTail, tenPiece, banner2]
  have shape5 : BUF = A5 ++ (('$' :: (name ++ ':' :: upJ)) ++ '\n' :: RT) := by
    rw [hBUF, hA5, hA4, hx3]
    simp [headerPart1, headerPart2, visionLine, versionLine, versionTail, tenPiece, banner2]
  have shape6 : BUF = A6 ++ RT := by
    rw [hBUF, hA6, hA5, hA4, hx3]
    simp [headerPart1, headerPart2, visionLine, versionLine, versionTail, tenPiece, banner2]
  have hvis_nl : '\n' ∉ visionLine := by decide
  have hver_nl : '\n' ∉ versionLine := by decide
  have hrl1 : readlineAt BUF 0 = (visionLine ++ ['\n'], 8) := by
    rw [readlineAt_decomp (List.nil_append BUF).symm (rfl : (0 : Nat) = ([] : List Char).length),
      shape1, lineAt_append _ hvis_nl]
    simp only [Prod.mk.injEq]
    refine ⟨by simp, ?_⟩
    have h7 : visionLine.length = 7 := by decide
    omega
  have hf1 : findFrom BUF '$' 0 = some 0 := by
    rw [findFrom_decomp (List.nil_append BUF).symm (rfl : (0 : Nat) = ([] : List Char).length),
      shape1]
    simp [visionLine, firstIdxFrom]
  have hnom1 : containsSeq (blockPattern name) (visionLine ++ ['\n']) = false :=
    pattern_no_colon (by decide)
  have hf2 : findFrom BUF '$' 8 = some (date.length + 11) := by
    have hx2 : '$' ∉ (['*', ' '] ++ (date ++ ['\n']) : List Char) := by
      intro hm
      rcases List.mem_append.1 hm with h | h
      · exact absurd h (by decide)
      · rcases List.mem_append.1 h with h2 | h2
        · exact hdate_nd h2
        · exact absurd h2 (by decide)
    rw [findFrom_decomp shape2 hlenA2.symm, firstIdx_dollar_after hx2]
    simp only [Option.map_some']
    congr 1
  have hrl2 : readlineAt BUF (date.length + 11) =
      (versionLine ++ ['\n'], date.length + 50) := by
    rw [readlineAt_decomp shape3 hlenA3.symm, lineAt_append _ hver_nl]
    simp only [Prod.mk.injEq]
    refine ⟨by simp, ?_⟩
    have h38 : versionLine.length = 38 := by decide
    omega
  have hnom2 : containsSeq (blockPattern name) (versionLine ++ ['\n']) = false := by
    have hpre : startsWithSeq (name ++ [':']) (versionTail ++ ['\n']) = false := by
      cases hs : startsWithSeq (name ++ [':']) (versionTail ++ ['\n']) with
      | false => rfl
      | true =>
        exfalso
        obtain ⟨t, ht⟩ := (startsWithSeq_iff _ _).1 hs
        have hlit : (versionTail ++ ['\n'] : List Char) = versionChars ++ ':' ::
            (['V', 'E', 'R', 'S', 'N', 'R', ';', 'F', 'I', 'L', 'E', 'T', 'Y', 'P', 'E', ';',
              'L', 'A', 'N', 'G', 'U', 'A', 'G', 'E', ';', 'U', 'N', 'I', 'T'] ++ ['\n']) := by
          decide
        have ht2 : name ++ ':' :: t = versionChars ++ ':' ::
            (['V', 'E', 'R', 'S', 'N', 'R', ';', 'F', 'I', 'L', 'E', 'T', 'Y', 'P', 'E', ';',
              'L', 'A', 'N', 'G', 'U', 'A', 'G', 'E', ';', 'U', 'N', 'I', 'T'] ++ ['\n']) := by
          rw [← hlit, ht]
          simp
        exact hn_ver (colon_free_eq hname_nc (by decide) ht2)
    have h1 : (versionLine ++ ['\n'] : List Char) = '$' :: (versionTail ++ ['\n']) := by
      decide
    rw [h1]
    exact pattern_not_at_head (by decide) hpre
  have hf3 : findFrom BUF '$' (date.length + 50) =
      some (date.length + ft.length + name.length + 81) := by
    have hx3m : '$' ∉ x3 := by
      rw [hx3]
      intro hm
      rcases List.mem_cons.1 hm with h | h
      · exact absurd h (by decide)
      · rcases List.mem_append.1 h with h2 | h2
        · exact absurd h2 (by decide)
        · rcases List.mem_append.1 h2 with h3 | h3
          · exact hft_nd h3
          · rcases List.mem_append.1 h3 with h4 | h4
            · exact absurd h4 (by decide)
            · rcases List.mem_append.1 h4 with h5 | h5
              · exact absurd h5 (by decide)
              · rcases List.mem_append.1 h5 with h6 | h6
                · exact hname_nd h6
                · exact absurd h6 (by decide)
    rw [findFrom_decomp shape4 hlenA4.symm, firstIdx_dollar_after hx3m]
    simp only [Option.map_some']
    congr 1
    rw [hlenx3]
    omega
  have hrl3 : readlineAt BUF (date.length + ft.length + name.length + 81) =
      (('$' :: (name ++ ':' :: upJ)) ++ ['\n'],
        date.length + ft.length + 2 * name.length + upJ.length + 84) := by
    rw [readlineAt_decomp shape5 hlenA5.symm, lineAt_append _ hhdr0_nl]
    simp only [Prod.mk.injEq]
    refine ⟨by simp, ?_⟩
    simp only [List.length_cons, List.length_append]
    omega
  have hm3 : containsSeq (blockPattern name)
      (('$' :: (name ++ ':' :: upJ)) ++ ['\n']) = true := by
    refine (containsSeq_iff _ _).2 ⟨[], upJ ++ ['\n'], ?_⟩
    simp [blockPattern]
  have hnostar : findFrom BUF '*'
      (date.length + ft.length + 2 * name.length + upJ.length + 84) = none := by
    rw [findFrom_decomp shape6 hlenA6.symm, firstIdxFrom_eq_none.2 hRT_ns]
    rfl
  have hterm : findTerminator BUF (BUF.length + 1)
      (date.length + ft.length + 2 * name.length + upJ.length + 84) = BUF.length := by
    rw [findTerminator, hnostar]
  have hdropb : BUF.drop (date.length + ft.length + name.length + 81) =
      ('$' :: (name ++ ':' :: upJ)) ++ '\n' :: RT := by
    rw [shape5, ← hlenA5]
    exact drop_len_append _ _
  obtain ⟨u0, utail, hcm⟩ : ∃ u0 utail, cols.map pyUpper = u0 :: utail := by
    cases cols with
    | nil => exact absurd rfl hc_ne
    | cons a l => exact ⟨pyUpper a, l.map pyUpper, rfl⟩
  have hpfx_ns : ';' ∉ ('$' :: (name ++ [':']) : List Char) := by
    intro hm
    rcases List.mem_cons.1 hm with h | h
    · exact absurd h (by decide)
    · rcases List.mem_append.1 h with h2 | h2
      · exact hname_ns h2
      · exact absurd h2 (by decide)
  have hsplit : splitFields ('$' :: (name ++ ':' :: upJ)) =
      (('$' :: (name ++ [':'])) ++ u0) :: utail := by
    have h0 : ('$' :: (name ++ ':' :: upJ) : List Char) =
        ('$' :: (name ++ [':'])) ++ joinSemi (cols.map pyUpper) := by
      rw [hupJ]
      simp
    rw [h0, splitFields_with_head hpfx_ns (by rw [hcm]; simp)
      (fun p hp hm => (plainChar_parts ((hups p hp).2.1 _ hm)).2.1 rfl)
      (fun p hp => (hups p hp).2.2), hcm]
    simp
  have hlc : (splitFields ('$' :: (name ++ ':' :: upJ))).length = cols.length := by
    rw [hsplit]
    have h2 : cols.length = utail.length + 1 := by
      have h3 := congrArg List.length hcm
      simp only [List.length_map, List.length_cons] at h3
      omega
    simp only [List.length_cons]
    omega
  have hrun2 : decode_csv (('$' :: (name ++ ':' :: upJ)) ++ '\n' :: rowsCsv rows) =
      Table.mk (splitFields ('$' :: (name ++ ':' :: upJ))) rows := by
    refine decode_csv_run (by simp) hhdr0_nl ?_ hr_cells ?_
    · intro r hr
      rw [hlc]
      exact hr_len r hr
    · intro j hj
      rw [hlc] at hj
      exact hhom j hj
  have hnup : pyUpper name = name := pyUpper_eq_self_of_goodName hn_good
  have hu0mem : u0 ∈ cols.map pyUpper := by
    rw [hcm]
    exact List.mem_cons_self u0 utail
  have hu0_nd : '$' ∉ u0 := fun hm => (plainChar_parts ((hups u0 hu0mem).2.1 _ hm)).1 rfl
  have hdec : decodeBlock name (('$' :: (name ++ ':' :: upJ)) ++ '\n' :: RT) =
      ({ columns := cols.map pyUpper, rows := rows } : Table) := by
    rw [hRT]
    unfold decodeBlock
    rw [hnup, hrun2]
    show Table.mk ((splitFields ('$' :: (name ++ ':' :: upJ))).map
        (fun x => pySplitLast ('$' :: (name ++ [':'])) x)) rows =
      Table.mk (cols.map pyUpper) rows
    have hcolseq : (splitFields ('$' :: (name ++ ':' :: upJ))).map
        (fun x => pySplitLast ('$' :: (name ++ [':'])) x) = cols.map pyUpper := by
      rw [hsplit]
      simp only [List.map_cons]
      rw [pySplitLast_strip (by simp)
        (containsSeq_eq_false_of_not_mem (List.mem_cons_self '$' (name ++ [':'])) hu0_nd)]
      rw [List.map_congr_left fun x hx => pySplitLast_not_contains
        (containsSeq_eq_false_of_not_mem (List.mem_cons_self '$' (name ++ [':']))
          (fun hm => (plainChar_parts
            ((hups x (by rw [hcm]; exact List.mem_cons_of_mem u0 hx)).2.1 _ hm)).1 rfl))]
      rw [hcm]
      simp
    rw [hcolseq]
  have hBne : BUF ≠ [] := by
    rw [shape1]
    simp [visionLine]
  have hBlen : 4 ≤ BUF.length := by
    rw [shape1]
    simp only [List.length_append, List.length_cons, List.length_nil, visionLine]
    omega
  unfold read_visum_file
  rw [if_neg hBne]
  show Except.ok (scanBlocks BUF [name] (BUF.length + 1) [false] [emptyTable] 0) =
    Except.ok [({ columns := cols.map pyUpper, rows := rows } : Table)]
  have hfuel : BUF.length + 1 = BUF.length - 3 + 1 + 1 + 1 + 1 := by omega
  rw [hfuel]
  rw [scan_step_skip2 (by decide) hf1 hrl1 (processNames_skip hnom1)]
  rw [scan_step_skip2 (by decide) hf2 hrl2 (processNames_skip hnom2)]
  rw [scan_step_hit2 (by decide) hf3 hrl3 hm3]
  rw [scan_step_stop (by decide)]
  rw [hterm, List.take_length, hdropb, hdec]
  rfl

/-- Claim C1, amended: for a create-mode export of a single table under a
block name that is nonempty uppercase alphanumeric and not the reserved
VERSION name, with a dollar-free file type and date, and a table with at
least one column, plain nonempty column names without leading spaces, plain
homogeneous columns of well-formed cells (string cells nonempty, without
leading spaces, and not parsing as integers), reading the written text back
under the same name returns exactly one table whose rows equal the original
rows and whose column names are the original column names uppercased. -/
theorem claim_C1_amended (name ft date : List Char) (cols : List (List Char))
    (rows : List (List Cell))
    (hname : goodName name = true) (hft : dollarFree ft = true)
    (hdate : dollarFree date = true)
    (htab : goodTable ⟨cols, rows⟩ = true) :
    read_visum_file (export_visum_file [⟨cols, rows⟩] [name] ft date wMode) [name] =
      Except.ok [({ columns := cols.map pyUpper, rows := rows } : Table)] := by
  have hexp : export_visum_file [⟨cols, rows⟩] [name] ft date wMode =
      headerPart1 ++ (date ++ (headerPart2 ++ (ft ++ (headerPart3 ++ (banner1 ++ (name ++
        (banner2 ++ (name ++ (':' :: (joinSemi (cols.map pyUpper) ++
          ('\n' :: rowsCsv rows)))))))))))  := by
    obtain ⟨-, -, -, hcells, -⟩ := goodTable_parts htab
    have hsan : sanitizeTable (⟨cols, rows⟩ : Table) = ⟨cols, rows⟩ :=
      sanitizeTable_plain hcells
    unfold export_visum_file replace_invalid_visum_chars
    simp only [List.map_cons, List.map_nil, hsan]
    unfold exportText
    rw [if_pos rfl]
    show headerText date ft ++ (tableBlockText ⟨cols, rows⟩ name ++ []) = _
    rw [List.append_nil]
    unfold headerText tableBlockText
    show headerPart1 ++ date ++ headerPart2 ++ ft ++ headerPart3 ++
        (banner1 ++ name ++ banner2 ++ name ++ ':' :: pyUpper (joinSemi cols) ++
          '\n' :: rowsCsv rows) = _
    rw [pyUpper_joinSemi]
    simp [List.append_assoc]
  rw [hexp]
  exact read_run name ft date cols rows hname hft hdate htab

theorem claim_C1_amended_witness :
    goodName ['T', 'T'] = true ∧ dollarFree ['N', 'e', 't'] = true ∧
    dollarFree ['0', '1', '/', '0', '2', '/', '2', '0', '2', '4'] = true ∧
    goodTable ⟨[['A']], [[Cell.str ['x']]]⟩ = true ∧
    read_visum_file
        (export_visum_file [⟨[['A']], [[Cell.str ['x']]]⟩] [['T', 'T']] ['N', 'e', 't']
          ['0', '1', '/', '0', '2', '/', '2', '0', '2', '4'] wMode) [['T', 'T']] =
      Except.ok
        [({ columns := [['A']].map pyUpper, rows := [[Cell.str ['x']]] } : Table)] :=
  ⟨by decide, by decide, by decide, by decide,
   claim_C1_amended ['T', 'T'] ['N', 'e', 't'] ['0', '1', '/', '0', '2', '/', '2', '0', '2', '4']
     [['A']] [[Cell.str ['x']]] (by decide) (by decide) (by decide) (by decide)⟩

end PSLib
